import Mathlib

/-! # Ring: a slice-backed circular buffer (`ring.go`)

Shallow embedding of package `ring`.

* Go `int` is modelled by `Int`.  Every arithmetic result the package computes
  on a ring built by `New` lies between `-1` and `len(buff)`, and a Go slice
  length never exceeds the largest `int`, so no operation can wrap around.
* Go `%` truncates towards zero (`Int.tmod`) and panics on a zero divisor.
* Go `interface{}` is modelled by `Option α`: `none` is the `nil` interface,
  `some a` is a non-nil value.  `Enqueue` accepts any `interface{}`, `nil`
  included.
* A run-time panic is modelled by `Except.error`.
-/

namespace ring

/-- Run-time panics of the Go program, plus the marker `loopBudget`, which the
model of the `for` loop of `PeekN` returns when its iteration budget runs out
(it never does). -/
inductive Fault where
  | divideByZero
  | indexOutOfRange
  | makeSliceLen
  | loopBudget
  deriving DecidableEq, Repr

/-- The struct `Ring`: `head` is the most recent value position, `tail` the
oldest value position, `buff` the backing slice. -/
structure Ring (α : Type) where
  head : Int
  tail : Int
  buff : List (Option α)
  deriving DecidableEq, Repr

namespace Ring

variable {α : Type}

/-- Constructor `New(c)`: `make([]interface{}, c)` panics for a negative length; otherwise
all slots are `nil`, `head` is `-1` and `tail` is `0`. -/
def New (c : Int) : Except Fault (Ring α) :=
  if c < 0 then .error .makeSliceLen
  else .ok { head := -1, tail := 0, buff := List.replicate c.toNat none }

/-- The expression `len(r.buff)`, as used inside the other methods. -/
def cap (r : Ring α) : Int := (r.buff.length : Int)

/-- Method `r.mod(p)`: `p % r.Capacity()`, Go's truncated remainder. -/
def mod (r : Ring α) (p : Int) : Except Fault Int :=
  if r.cap = 0 then .error .divideByZero else .ok (Int.tmod p r.cap)

/-- The slice read `r.buff[i]`. -/
def index (r : Ring α) (i : Int) : Except Fault (Option α) :=
  if 0 ≤ i ∧ i < r.cap then .ok (r.buff.getD i.toNat none)
  else .error .indexOutOfRange

/-- The slice write `r.buff[i] = v`. -/
def store (r : Ring α) (i : Int) (v : Option α) : Except Fault (Ring α) :=
  if 0 ≤ i ∧ i < r.cap then .ok { r with buff := r.buff.set i.toNat v }
  else .error .indexOutOfRange

/-- Method `r.set(p, v)`: `r.buff[r.mod(p)] = v`. -/
def set (r : Ring α) (p : Int) (v : Option α) : Except Fault (Ring α) := do
  let i ← r.mod p
  r.store i v

/-- Method `r.get(p)`: `r.buff[r.mod(p)]`. -/
def get (r : Ring α) (p : Int) : Except Fault (Option α) := do
  let i ← r.mod p
  r.index i

/-- Method `r.Capacity()`: returns `len(r.buff)`; the receiver is passed by value. -/
def Capacity (r : Ring α) : Except Fault (Int × Ring α) :=
  .ok (r.cap, r)

/-- Method `r.Enqueue(e)`: the ring afterwards. -/
def Enqueue (r : Ring α) (e : Option α) : Except Fault (Ring α) := do
  let r ← r.set (r.head + 1) e
  let old := r.head
  let h ← r.mod (r.head + 1)
  let r := { r with head := h }
  if old ≠ -1 ∧ r.head = r.tail then
    let t ← r.mod (r.tail + 1)
    pure { r with tail := t }
  else
    pure r

/-- Method `r.Dequeue()`: the returned value and the ring afterwards. -/
def Dequeue (r : Ring α) : Except Fault (Option α × Ring α) :=
  if r.head = -1 then .ok (none, r)
  else do
    let v ← r.get r.tail
    if r.tail = r.head then
      pure (v, { r with head := -1, tail := 0 })
    else
      let t ← r.mod (r.tail + 1)
      pure (v, { r with tail := t })

/-- Method `r.Peek()`: the returned value and the ring afterwards. -/
def Peek (r : Ring α) : Except Fault (Option α × Ring α) :=
  if r.head = -1 then .ok (none, r)
  else do
    let v ← r.get r.head
    pure (v, r)

/-- Method `r.Tail()`: the returned value and the ring afterwards. -/
def Tail (r : Ring α) : Except Fault (Option α × Ring α) :=
  if r.head = -1 then .ok (none, r)
  else do
    let v ← r.get r.tail
    pure (v, r)

/-- The `for` loop of `PeekN`, one iteration per unit of `budget`: `i` is the
loop index, `b` the slice built so far. -/
def peekLoop (r : Ring α) (n : Int) :
    Nat → Int → List (Option α) → Except Fault (List (Option α))
  | 0, _, _ => .error .loopBudget
  | budget + 1, i, b => do
    let v ← r.index i
    let b := b ++ [v]
    if i = r.tail ∨ (b.length : Int) = n then
      pure b
    else
      let i := i - 1
      let i := if i < 0 then r.cap - 1 else i
      peekLoop r n budget i b

/-- Method `r.PeekN(n)`: the returned slice (a `nil` slice is the empty list) and the
ring afterwards.  The loop appends one element per iteration and stops once
`len(b) == n`, so `n` iterations are its budget. -/
def PeekN (r : Ring α) (n : Int) : Except Fault (List (Option α) × Ring α) :=
  if n ≤ 0 then .ok ([], r)
  else if r.head = -1 then .ok ([], r)
  else do
    let b ← peekLoop r n n.toNat r.head []
    pure (b, r)

/-- A call of one exported method. -/
inductive Call (α : Type) where
  | enqueue (e : Option α)
  | dequeue
  | peek
  | tail
  | peekN (n : Int)
  | capacity
  deriving DecidableEq, Repr

/-- What a call hands back to the caller. -/
inductive Ret (α : Type) where
  | unit
  | value (v : Option α)
  | slice (b : List (Option α))
  | int (n : Int)
  deriving DecidableEq, Repr

/-- One call on `r`: what it returns and the ring afterwards. -/
def step (r : Ring α) : Call α → Except Fault (Ret α × Ring α)
  | .enqueue e => do let r ← r.Enqueue e; pure (.unit, r)
  | .dequeue => do let (v, r) ← r.Dequeue; pure (.value v, r)
  | .peek => do let (v, r) ← r.Peek; pure (.value v, r)
  | .tail => do let (v, r) ← r.Tail; pure (.value v, r)
  | .peekN n => do let (b, r) ← r.PeekN n; pure (.slice b, r)
  | .capacity => do let (n, r) ← r.Capacity; pure (.int n, r)

/-- A sequence of calls on `r`: the results in call order and the final ring. -/
def run (r : Ring α) : List (Call α) → Except Fault (List (Ret α) × Ring α)
  | [] => .ok ([], r)
  | c :: cs => do
    let (x, r) ← r.step c
    let (xs, r) ← run r cs
    pure (x :: xs, r)

/-- The calls `Enqueue(v1), ..., Enqueue(ve)` in this order. -/
def enqueueAll (r : Ring α) : List (Option α) → Except Fault (Ring α)
  | [] => .ok r
  | v :: vs => do
    let r ← r.Enqueue v
    enqueueAll r vs

/-- The call `Dequeue()` made `k` times: the returned values in call order and the
ring afterwards. -/
def dequeueN (r : Ring α) : Nat → Except Fault (List (Option α) × Ring α)
  | 0 => .ok ([], r)
  | k + 1 => do
    let (v, r) ← r.Dequeue
    let (vs, r) ← dequeueN r k
    pure (v :: vs, r)

/-! ## Representation: the ring as a bounded queue

`Rep r c t q` says that `r` is a well-formed ring of capacity `c` whose tail
cursor is `t` and whose retained values, oldest first, are `q`. -/

/-- The ring `r` has capacity `c`, tail cursor `t`, and holds the values `q`
(oldest first) in the slots `t, t+1, ...` taken circularly. -/
structure Rep (r : Ring α) (c t : Nat) (q : List (Option α)) : Prop where
  cpos : 0 < c
  len : r.buff.length = c
  tlt : t < c
  qlen : q.length ≤ c
  tail_eq : r.tail = (t : Int)
  head_eq : r.head = if q.length = 0 then -1 else (((t + q.length - 1) % c : Nat) : Int)
  empty_t : q.length = 0 → t = 0
  slots : ∀ k, k < q.length → r.buff.getD ((t + k) % c) none = q.getD k none

/-- The ring `New(c)` for a capacity given as a natural number. -/
def fresh (c : Nat) : Ring α :=
  { head := -1, tail := 0, buff := List.replicate c none }

/-- States reachable from `New(c)`, `c > 0`, by `Enqueue` and `Dequeue` calls. -/
inductive Reach (c : Int) : Ring α → Prop where
  | new (r : Ring α) (hc : 0 < c) (h : New c = .ok r) : Reach c r
  | enqueue (r r' : Ring α) (e : Option α) (hr : Reach c r)
      (h : r.Enqueue e = .ok r') : Reach c r'
  | dequeue (r r' : Ring α) (v : Option α) (hr : Reach c r)
      (h : r.Dequeue = .ok (v, r')) : Reach c r'

/-! ### The bounded queue the ring implements, and call loops of the specification -/

/-- The tail cursor after `Enqueue` on a ring with tail `t` holding `q`. -/
def enqT (c t : Nat) (q : List (Option α)) : Nat :=
  if q.length < c then t else (t + 1) % c

/-- The retained values after `Enqueue(v)` on a ring of capacity `c` holding `q`. -/
def enqQ (c : Nat) (q : List (Option α)) (v : Option α) : List (Option α) :=
  if q.length < c then q ++ [v] else q.drop 1 ++ [v]

/-- The tail cursor after a `Dequeue` that leaves the values `q` behind. -/
def deqT (c t : Nat) (q : List (Option α)) : Nat :=
  if q.length = 0 then 0 else (t + 1) % c

/-- What one call returns, the tail cursor and the retained values afterwards,
read off the representation `(c, t, q)`. -/
def absStep (c t : Nat) (q : List (Option α)) : Call α → Ret α × Nat × List (Option α)
  | .enqueue e => (.unit, enqT c t q, enqQ c q e)
  | .dequeue =>
    match q with
    | [] => (.value none, t, [])
    | a :: q' => (.value a, deqT c t q', q')
  | .peek => (.value (q.getD (q.length - 1) none), t, q)
  | .tail => (.value (q.getD 0 none), t, q)
  | .peekN n => (.slice (q.reverse.take n.toNat), t, q)
  | .capacity => (.int (c : Int), t, q)

/-- The results of a call sequence and the final representation. -/
def absRun (c : Nat) : Nat → List (Option α) → List (Call α) →
    List (Ret α) × Nat × List (Option α)
  | t, q, [] => ([], t, q)
  | t, q, x :: xs =>
    let s := absStep c t q x
    let rest := absRun c s.2.1 s.2.2 xs
    (s.1 :: rest.1, rest.2.1, rest.2.2)

/-- Occupancy as the specification defines it: `0` when `head = -1`, otherwise
`((head - tail) floor-mod c) + 1` (`%` on `Int` is the floor modulus for a
positive modulus). -/
def occupancy (r : Ring α) : Int :=
  if r.head = -1 then 0 else (r.head - r.tail) % r.cap + 1

/-- The caller's loop `for r.Dequeue() != nil {}`, one `Dequeue` call per unit
of `budget`: it stops at the first call that returns nil. -/
def drainLoop : Nat → Ring α → Except Fault (Ring α)
  | 0, _ => .error .loopBudget
  | budget + 1, r => do
    let (v, r) ← r.Dequeue
    if v.isNone then pure r else drainLoop budget r

/-- Calls of `Dequeue` until `Dequeue` returns no value, as the emptying law of
the specification words it.  Every call that returns
a value removes one of the at most `len(buff)` retained values, so
`len(buff) + 1` calls are the loop's budget. -/
def dequeueUntilNil (r : Ring α) : Except Fault (Ring α) :=
  drainLoop (r.buff.length + 1) r

/-- The loop `for r.head != -1 { r.Dequeue() }`, one test per unit of `budget`:
it stops as soon as the ring is empty. -/
def drainEmptyLoop : Nat → Ring α → Except Fault (Ring α)
  | 0, _ => .error .loopBudget
  | budget + 1, r =>
    if r.head = -1 then .ok r
    else do
      let (_, r) ← r.Dequeue
      drainEmptyLoop budget r

/-- Calls of `Dequeue` until the ring is empty, as the testable property of the
specification words the emptying law ("dequeuing until empty").  Every call on
a non-empty ring removes one of the at most `len(buff)` retained values, so
`len(buff) + 1` tests are the loop's budget. -/
def dequeueUntilEmpty (r : Ring α) : Except Fault (Ring α) :=
  drainEmptyLoop (r.buff.length + 1) r

/-- Contents as the specification defines them: the empty list when
`head = -1`, otherwise the stored values at slots `tail, tail+1, ..., head` taken
circularly modulo the capacity, oldest first. -/
def contents (r : Ring α) : List (Option α) :=
  if r.head = -1 then []
  else (List.range r.occupancy.toNat).map
    (fun (k : Nat) => r.buff.getD ((r.tail + (k : Int)) % r.cap).toNat none)

/-! ### Arithmetic of circular indices -/

theorem mod_two_mul (c x : Nat) (h : x < 2 * c) :
    x % c = if x < c then x else x - c := by
  split_ifs with h1
  · exact Nat.mod_eq_of_lt h1
  · rw [Nat.mod_eq_sub_mod (by omega), Nat.mod_eq_of_lt (by omega)]

theorem mod_add_inj (c t k j : Nat) (ht : t < c) (hk : k < c) (hj : j < c)
    (h : (t + k) % c = (t + j) % c) : k = j := by
  rw [mod_two_mul c (t + k) (by omega), mod_two_mul c (t + j) (by omega)] at h
  split_ifs at h <;> omega

theorem mod_succ_add (c t k : Nat) (ht : t < c) (hk : k < c) :
    ((t + 1) % c + k) % c = (t + (k + 1)) % c := by
  rw [mod_two_mul c (t + 1) (by omega), mod_two_mul c (t + (k + 1)) (by omega)]
  split_ifs
  · rw [mod_two_mul c _ (by omega)]; split_ifs <;> omega
  · rw [mod_two_mul c _ (by omega)]; split_ifs <;> omega
  · rw [mod_two_mul c _ (by omega)]; split_ifs <;> omega
  · rw [mod_two_mul c _ (by omega)]; split_ifs <;> omega

theorem getD_set_self (l : List (Option α)) (i : Nat) (v : Option α) (h : i < l.length) :
    (l.set i v).getD i none = v := by
  simp [List.getElem?_set, h]

theorem getD_set_other (l : List (Option α)) (i j : Nat) (v : Option α) (h : i ≠ j) :
    (l.set i v).getD j none = l.getD j none := by
  simp [List.getElem?_set, h]

theorem getD_snoc_left (q : List (Option α)) (v : Option α) (k : Nat) (h : k < q.length) :
    (q ++ [v]).getD k none = q.getD k none := by
  simp [List.getElem?_append_left h]

theorem getD_snoc_last (q : List (Option α)) (v : Option α) (k : Nat) (h : k = q.length) :
    (q ++ [v]).getD k none = v := by
  subst h
  simp

theorem getD_drop_one (q : List (Option α)) (k : Nat) :
    (q.drop 1).getD k none = q.getD (k + 1) none := by
  simp [List.getElem?_drop, Nat.add_comm]

theorem New_pos (c : Nat) : (New (c : Int) : Except Fault (Ring α)) = .ok (fresh c) := by
  simp [New, fresh]

theorem mod_natCast (r : Ring α) (c x : Nat) (hc : 0 < c) (hl : r.buff.length = c) :
    r.mod (x : Int) = .ok (((x % c : Nat) : Int)) := by
  have h0 : ¬ (r.cap = 0) := by simp [cap, hl]; omega
  unfold mod
  rw [if_neg h0, cap, hl, Int.ofNat_tmod]

theorem index_natCast (r : Ring α) (i : Nat) (h : i < r.buff.length) :
    r.index (i : Int) = .ok (r.buff.getD i none) := by
  simp [index, cap, h]

theorem store_natCast (r : Ring α) (i : Nat) (v : Option α) (h : i < r.buff.length) :
    r.store (i : Int) v = .ok { r with buff := r.buff.set i v } := by
  simp [store, cap, h]

theorem get_natCast (r : Ring α) (c x : Nat) (hc : 0 < c) (hl : r.buff.length = c) :
    r.get (x : Int) = .ok (r.buff.getD (x % c) none) := by
  have h : x % c < r.buff.length := by rw [hl]; exact Nat.mod_lt _ hc
  simp only [get, mod_natCast r c x hc hl]
  exact index_natCast r (x % c) h

theorem set_natCast (r : Ring α) (c x : Nat) (v : Option α) (hc : 0 < c)
    (hl : r.buff.length = c) :
    r.set (x : Int) v = .ok { r with buff := r.buff.set (x % c) v } := by
  have h : x % c < r.buff.length := by rw [hl]; exact Nat.mod_lt _ hc
  simp only [set, mod_natCast r c x hc hl]
  exact store_natCast r (x % c) v h

theorem Rep_fresh (c : Nat) (hc : 0 < c) : Rep (fresh c : Ring α) c 0 [] where
  cpos := hc
  len := by simp [fresh]
  tlt := hc
  qlen := by simp
  tail_eq := by simp [fresh]
  head_eq := by simp [fresh]
  empty_t := fun _ => rfl
  slots := by simp

theorem Rep.head_succ {r : Ring α} {c t : Nat} {q : List (Option α)} (h : Rep r c t q) :
    ∃ x : Nat, r.head + 1 = (x : Int) ∧ x % c = (t + q.length) % c := by
  by_cases hq : q.length = 0
  · refine ⟨0, ?_, ?_⟩
    · rw [h.head_eq, if_pos hq]; rfl
    · rw [hq, h.empty_t hq]
  · refine ⟨(t + q.length - 1) % c + 1, ?_, ?_⟩
    · rw [h.head_eq, if_neg hq]; push_cast; ring
    · have h1 := h.tlt
      have h2 := h.qlen
      rw [mod_two_mul c (t + q.length - 1) (by omega)]
      rw [mod_two_mul c (t + q.length) (by omega)]
      split_ifs <;> first | omega | (rw [mod_two_mul c _ (by omega)]; split_ifs <;> omega)

theorem Rep.enqueue_ok {r : Ring α} {c t : Nat} {q : List (Option α)} (h : Rep r c t q)
    (v : Option α) :
    ∃ r', r.Enqueue v = .ok r' ∧ Rep r' c (enqT c t q) (enqQ c q v) := by
  obtain ⟨x, hx1, hx2⟩ := h.head_succ
  obtain ⟨cpos, len, tlt, qlen, tail_eq, head_eq, empty_t, slots⟩ := h
  unfold Enqueue
  rw [hx1, set_natCast r c x v cpos len]
  simp only [bind, Except.bind]
  rw [hx1, mod_natCast _ c x cpos (by simp [len])]
  simp only []
  have hxt : x % c = t ↔ q.length = c ∨ q.length = 0 := by
    constructor
    · intro e
      by_contra hne
      push_neg at hne
      have := mod_add_inj c t q.length 0 tlt (by omega) cpos
        (by rw [← hx2, e, Nat.add_zero, Nat.mod_eq_of_lt tlt])
      omega
    · rintro (e | e)
      · rw [hx2, e, Nat.add_mod_right, Nat.mod_eq_of_lt tlt]
      · rw [hx2, e, Nat.add_zero, Nat.mod_eq_of_lt tlt]
  have hhead : r.head ≠ -1 ↔ q.length ≠ 0 := by
    rw [head_eq]; split_ifs with h0
    · simp [h0]
    · simp only [ne_eq, h0, not_false_eq_true, iff_true]; omega
  by_cases hfull : q.length = c
  · have hc0 : q.length ≠ 0 := by omega
    have hcond : r.head ≠ -1 ∧ ((x % c : Nat) : Int) = r.tail := by
      refine ⟨hhead.2 hc0, ?_⟩
      rw [tail_eq, hxt.2 (Or.inl hfull)]
    rw [if_pos hcond, tail_eq]
    have e1 : ((t : Int) + 1) = ((t + 1 : Nat) : Int) := by push_cast; ring
    rw [e1, mod_natCast _ c (t + 1) cpos (by simp [len])]
    refine ⟨_, rfl, ?_⟩
    have hT : enqT c t q = (t + 1) % c := by simp [enqT, hfull]
    have hQ : enqQ c q v = q.drop 1 ++ [v] := by simp [enqQ, hfull]
    rw [hT, hQ]
    have hlen : (q.drop 1 ++ [v]).length = c := by simp; omega
    refine ⟨cpos, by simp [len], Nat.mod_lt _ cpos, by omega, rfl, ?_, ?_, ?_⟩
    · show ((x % c : Nat) : Int) = _
      rw [hlen, if_neg (by omega), hxt.2 (Or.inl hfull)]
      congr 1
      rw [mod_two_mul c (t + 1) (by omega)]
      split_ifs
      · rw [mod_two_mul c _ (by omega)]; split_ifs <;> omega
      · rw [mod_two_mul c _ (by omega)]; split_ifs <;> omega
    · intro h0; omega
    · intro k hk
      rw [hlen] at hk
      show (r.buff.set (x % c) v).getD _ none = _
      rw [mod_succ_add c t k tlt hk, hxt.2 (Or.inl hfull)]
      by_cases hk1 : k + 1 = c
      · rw [hk1, Nat.add_mod_right, Nat.mod_eq_of_lt tlt,
          getD_set_self _ _ _ (by omega),
          getD_snoc_last _ _ _ (by simp; omega)]
      · have hne : t ≠ (t + (k + 1)) % c := by
          intro e
          have := mod_add_inj c t 0 (k + 1) tlt cpos (by omega)
            (by rw [Nat.add_zero, Nat.mod_eq_of_lt tlt]; exact e)
          omega
        rw [getD_set_other _ _ _ _ hne, getD_snoc_left _ _ _ (by simp; omega),
          getD_drop_one, slots (k + 1) (by omega)]
  · have hlt : q.length < c := by omega
    have hcond : ¬ (r.head ≠ -1 ∧ ((x % c : Nat) : Int) = r.tail) := by
      rintro ⟨h1, h2⟩
      rw [tail_eq] at h2
      have h3 : x % c = t := by exact_mod_cast h2
      rcases hxt.1 h3 with e | e
      · exact hfull e
      · exact hhead.1 h1 e
    rw [if_neg hcond]
    refine ⟨_, rfl, ?_⟩
    have hT : enqT c t q = t := by simp [enqT, hlt]
    have hQ : enqQ c q v = q ++ [v] := by simp [enqQ, hlt]
    rw [hT, hQ]
    have hlen : (q ++ [v]).length = q.length + 1 := by simp
    refine ⟨cpos, by simp [len], tlt, by omega, tail_eq, ?_, ?_, ?_⟩
    · show ((x % c : Nat) : Int) = _
      rw [hlen, if_neg (by omega), hx2]
      rfl
    · intro h0; omega
    · intro k hk
      rw [hlen] at hk
      show (r.buff.set (x % c) v).getD _ none = _
      rw [hx2]
      by_cases hk1 : k = q.length
      · rw [hk1, getD_set_self _ _ _ (by rw [len]; exact Nat.mod_lt _ cpos),
          getD_snoc_last _ _ _ rfl]
      · have hne : (t + q.length) % c ≠ (t + k) % c := by
          intro e
          have := mod_add_inj c t _ _ tlt hlt (by omega) e
          omega
        rw [getD_set_other _ _ _ _ hne, getD_snoc_left _ _ _ (by omega),
          slots k (by omega)]

theorem Rep.head_empty {r : Ring α} {c t : Nat} {q : List (Option α)} (h : Rep r c t q) :
    r.head = -1 ↔ q.length = 0 := by
  rw [h.head_eq]; split_ifs with h0
  · simp [h0]
  · constructor
    · intro e
      exact e.elim
    · intro e
      exact absurd e h0

theorem Rep.dequeue_nil {r : Ring α} {c t : Nat} (h : Rep r c t []) :
    r.Dequeue = .ok (none, r) := by
  have : r.head = -1 := h.head_empty.2 rfl
  simp [Dequeue, this]

theorem Rep.tail_slot {r : Ring α} {c t : Nat} {q : List (Option α)} (h : Rep r c t q)
    (h0 : q.length ≠ 0) : r.get r.tail = .ok (q.getD 0 none) := by
  rw [h.tail_eq, get_natCast r c t h.cpos h.len, ← h.slots 0 (by omega), Nat.add_zero]

theorem Rep.head_slot {r : Ring α} {c t : Nat} {q : List (Option α)} (h : Rep r c t q)
    (h0 : q.length ≠ 0) : r.get r.head = .ok (q.getD (q.length - 1) none) := by
  rw [h.head_eq, if_neg h0, get_natCast r c _ h.cpos h.len, Nat.mod_mod,
    ← h.slots (q.length - 1) (by omega)]
  congr 3
  omega

theorem Rep.dequeue_cons {r : Ring α} {c t : Nat} {a : Option α} {q : List (Option α)}
    (h : Rep r c t (a :: q)) :
    ∃ r', r.Dequeue = .ok (a, r') ∧ Rep r' c (deqT c t q) q := by
  have hne : ¬ r.head = -1 := fun e => by simpa using h.head_empty.1 e
  have hget := h.tail_slot (by simp)
  obtain ⟨cpos, len, tlt, qlen, tail_eq, head_eq, empty_t, slots⟩ := h
  simp only [List.length_cons] at qlen head_eq slots
  unfold Dequeue
  rw [if_neg hne, hget]
  simp only [bind, Except.bind, List.getD_cons_zero]
  have hth : r.tail = r.head ↔ q.length = 0 := by
    rw [tail_eq, head_eq, if_neg (by omega)]
    constructor
    · intro e
      have e1 : t = (t + (q.length + 1) - 1) % c := by exact_mod_cast e
      have := mod_add_inj c t 0 q.length tlt cpos (by omega)
        (by rw [Nat.add_zero, Nat.mod_eq_of_lt tlt]; rw [e1]; congr 1; omega)
      omega
    · intro e
      rw [e]
      simp [Nat.mod_eq_of_lt tlt]
  by_cases hq : q.length = 0
  · rw [if_pos (hth.2 hq)]
    refine ⟨_, rfl, ?_⟩
    have hT : deqT c t q = 0 := by simp [deqT, hq]
    rw [hT]
    exact ⟨cpos, len, cpos, by omega, rfl, by simp [hq], fun _ => rfl,
      fun k hk => by omega⟩
  · rw [if_neg (fun e => hq (hth.1 e)), tail_eq]
    have e1 : ((t : Int) + 1) = ((t + 1 : Nat) : Int) := by push_cast; ring
    rw [e1, mod_natCast _ c (t + 1) cpos len]
    refine ⟨_, rfl, ?_⟩
    have hT : deqT c t q = (t + 1) % c := by simp [deqT, hq]
    rw [hT]
    refine ⟨cpos, len, Nat.mod_lt _ cpos, by omega, rfl, ?_, fun e => absurd e hq, ?_⟩
    · show r.head = _
      rw [head_eq, if_neg (by omega), if_neg hq]
      congr 1
      have := mod_succ_add c t (q.length - 1) tlt (by omega)
      rw [show (t + 1) % c + q.length - 1 = (t + 1) % c + (q.length - 1) by omega, this]
      congr 1
      omega
    · intro k hk
      show r.buff.getD _ none = _
      rw [mod_succ_add c t k tlt (by omega), slots (k + 1) (by omega)]
      simp

theorem Rep.peek_ok {r : Ring α} {c t : Nat} {q : List (Option α)} (h : Rep r c t q) :
    r.Peek = .ok (q.getD (q.length - 1) none, r) := by
  unfold Peek
  by_cases h0 : q.length = 0
  · rw [if_pos (h.head_empty.2 h0)]
    have : q = [] := List.length_eq_zero.1 h0
    subst this
    rfl
  · rw [if_neg (fun e => h0 (h.head_empty.1 e)), h.head_slot h0]
    rfl

theorem Rep.tail_ok {r : Ring α} {c t : Nat} {q : List (Option α)} (h : Rep r c t q) :
    r.Tail = .ok (q.getD 0 none, r) := by
  unfold Tail
  by_cases h0 : q.length = 0
  · rw [if_pos (h.head_empty.2 h0)]
    have : q = [] := List.length_eq_zero.1 h0
    subst this
    rfl
  · rw [if_neg (fun e => h0 (h.head_empty.1 e)), h.tail_slot h0]
    rfl

theorem take_succ_reverse_take (q : List (Option α)) (m k : Nat) (hm : m < q.length) :
    ((q.take (m + 1)).reverse).take (k + 1)
      = q.getD m none :: ((q.take m).reverse).take k := by
  have e : q.take (m + 1) = q.take m ++ [q.getD m none] := by
    rw [@List.take_succ _ q m]
    simp [List.getElem?_eq_getElem hm]
  rw [e]
  simp

theorem pred_wrap (c t m : Nat) (ht : t < c) (hm : m + 1 < c) :
    (if (((t + (m + 1)) % c : Nat) : Int) - 1 < 0 then (c : Int) - 1
      else (((t + (m + 1)) % c : Nat) : Int) - 1) = (((t + m) % c : Nat) : Int) := by
  rw [mod_two_mul c (t + (m + 1)) (by omega), mod_two_mul c (t + m) (by omega)]
  split_ifs <;> omega

theorem Rep.peekLoop_ok {r : Ring α} {c t : Nat} {q : List (Option α)} (h : Rep r c t q)
    (n : Int) :
    ∀ (m : Nat) (b : List (Option α)) (budget : Nat), m < q.length →
      (b.length : Int) < n → n.toNat - b.length ≤ budget →
      peekLoop r n budget (((t + m) % c : Nat) : Int) b
        = .ok (b ++ ((q.take (m + 1)).reverse).take (n.toNat - b.length)) := by
  intro m
  induction m with
  | zero =>
    intro b budget hm hb hbud
    obtain ⟨k, hk⟩ : ∃ k, n.toNat - b.length = k + 1 := ⟨n.toNat - b.length - 1, by omega⟩
    obtain ⟨bud, rfl⟩ : ∃ bud, budget = bud + 1 := ⟨budget - 1, by omega⟩
    have hi : (t + 0) % c < r.buff.length := by rw [h.len]; exact Nat.mod_lt _ h.cpos
    unfold peekLoop
    rw [index_natCast r _ hi, h.slots 0 hm]
    simp only [bind, Except.bind]
    have hcond : (((t + 0) % c : Nat) : Int) = r.tail
        ∨ ((b ++ [q.getD 0 none]).length : Int) = n := by
      left
      rw [h.tail_eq, Nat.add_zero, Nat.mod_eq_of_lt h.tlt]
    rw [if_pos hcond, hk, take_succ_reverse_take q 0 k hm]
    simp [pure, Except.pure]
  | succ m ih =>
    intro b budget hm hb hbud
    obtain ⟨k, hk⟩ : ∃ k, n.toNat - b.length = k + 1 := ⟨n.toNat - b.length - 1, by omega⟩
    obtain ⟨bud, rfl⟩ : ∃ bud, budget = bud + 1 := ⟨budget - 1, by omega⟩
    have hqc := h.qlen
    have hi : (t + (m + 1)) % c < r.buff.length := by
      rw [h.len]; exact Nat.mod_lt _ h.cpos
    unfold peekLoop
    rw [index_natCast r _ hi, h.slots (m + 1) hm]
    simp only [bind, Except.bind]
    have hnt : ¬ ((((t + (m + 1)) % c : Nat) : Int) = r.tail) := by
      rw [h.tail_eq]
      intro e
      have e1 : (t + (m + 1)) % c = t := by exact_mod_cast e
      have := mod_add_inj c t (m + 1) 0 h.tlt (by omega) h.cpos
        (by rw [e1, Nat.add_zero, Nat.mod_eq_of_lt h.tlt])
      omega
    rw [hk, take_succ_reverse_take q (m + 1) k hm]
    by_cases hstop : ((b ++ [q.getD (m + 1) none]).length : Int) = n
    · rw [if_pos (Or.inr hstop)]
      have hk0 : k = 0 := by
        simp only [List.length_append, List.length_singleton] at hstop
        omega
      subst hk0
      simp [pure, Except.pure]
    · rw [if_neg (by rintro (e | e); exact hnt e; exact hstop e)]
      have hcap : r.cap = (c : Int) := by simp [cap, h.len]
      rw [hcap, pred_wrap c t m h.tlt (by omega)]
      have hlen : (b ++ [q.getD (m + 1) none]).length = b.length + 1 := by simp
      rw [ih (b ++ [q.getD (m + 1) none]) bud (by omega) (by rw [hlen]; push_cast; omega)
        (by rw [hlen]; omega)]
      rw [hlen, show n.toNat - (b.length + 1) = k by omega]
      simp

theorem Rep.peekN_ok {r : Ring α} {c t : Nat} {q : List (Option α)} (h : Rep r c t q)
    (n : Int) : r.PeekN n = .ok (q.reverse.take n.toNat, r) := by
  unfold PeekN
  by_cases hn : n ≤ 0
  · rw [if_pos hn, Int.toNat_of_nonpos hn]
    rfl
  · rw [if_neg hn]
    by_cases h0 : q.length = 0
    · rw [if_pos (h.head_empty.2 h0)]
      have : q = [] := List.length_eq_zero.1 h0
      subst this
      simp
    · rw [if_neg (fun e => h0 (h.head_empty.1 e)), h.head_eq, if_neg h0]
      rw [show t + q.length - 1 = t + (q.length - 1) by omega]
      rw [h.peekLoop_ok n (q.length - 1) [] n.toNat (by omega) (by simp; omega) (by simp)]
      simp only [bind, Except.bind, pure, Except.pure, List.nil_append, List.length_nil,
        Nat.sub_zero]
      rw [show q.length - 1 + 1 = q.length by omega, List.take_length]

/-! ### Simulation of the bounded queue by the ring -/

theorem Rep.step_ok {r : Ring α} {c t : Nat} {q : List (Option α)} (h : Rep r c t q)
    (x : Call α) :
    ∃ r', r.step x = .ok ((absStep c t q x).1, r')
      ∧ Rep r' c (absStep c t q x).2.1 (absStep c t q x).2.2 := by
  cases x with
  | enqueue e =>
    obtain ⟨r', h1, h2⟩ := h.enqueue_ok e
    exact ⟨r', by simp [step, h1, absStep, bind, Except.bind, pure, Except.pure], h2⟩
  | dequeue =>
    cases q with
    | nil =>
      exact ⟨r, by simp [step, h.dequeue_nil, absStep, bind, Except.bind, pure, Except.pure], h⟩
    | cons a q' =>
      obtain ⟨r', h1, h2⟩ := h.dequeue_cons
      exact ⟨r', by simp [step, h1, absStep, bind, Except.bind, pure, Except.pure], h2⟩
  | peek =>
    exact ⟨r, by simp [step, h.peek_ok, absStep, bind, Except.bind, pure, Except.pure], h⟩
  | tail =>
    exact ⟨r, by simp [step, h.tail_ok, absStep, bind, Except.bind, pure, Except.pure], h⟩
  | peekN n =>
    exact ⟨r, by simp [step, h.peekN_ok, absStep, bind, Except.bind, pure, Except.pure], h⟩
  | capacity =>
    exact ⟨r, by simp [step, Capacity, cap, h.len, absStep, bind, Except.bind, pure,
      Except.pure], h⟩

theorem Rep.run_ok {r : Ring α} {c t : Nat} {q : List (Option α)} (h : Rep r c t q)
    (xs : List (Call α)) :
    ∃ r', r.run xs = .ok ((absRun c t q xs).1, r')
      ∧ Rep r' c (absRun c t q xs).2.1 (absRun c t q xs).2.2 := by
  induction xs generalizing r t q with
  | nil => exact ⟨r, rfl, h⟩
  | cons x xs ih =>
    obtain ⟨r1, h1, h2⟩ := h.step_ok x
    obtain ⟨r2, h3, h4⟩ := ih h2
    exact ⟨r2, by simp [run, h1, h3, absRun, bind, Except.bind, pure, Except.pure], h4⟩

theorem Reach.rep {c : Int} {r : Ring α} (h : Reach c r) :
    ∃ (n t : Nat) (q : List (Option α)), c = (n : Int) ∧ Rep r n t q := by
  induction h with
  | new r hc h =>
    refine ⟨c.toNat, 0, [], (Int.toNat_of_nonneg hc.le).symm, ?_⟩
    have e : c = (c.toNat : Int) := (Int.toNat_of_nonneg hc.le).symm
    rw [e, New_pos] at h
    cases h
    exact Rep_fresh _ (by omega)
  | enqueue r r' e _ h ih =>
    obtain ⟨n, t, q, hn, hrep⟩ := ih
    obtain ⟨r1, h1, h2⟩ := hrep.enqueue_ok e
    rw [h1] at h
    cases h
    exact ⟨n, _, _, hn, h2⟩
  | dequeue r r' v _ h ih =>
    obtain ⟨n, t, q, hn, hrep⟩ := ih
    cases q with
    | nil =>
      rw [hrep.dequeue_nil] at h
      cases h
      exact ⟨n, _, _, hn, hrep⟩
    | cons a q' =>
      obtain ⟨r1, h1, h2⟩ := hrep.dequeue_cons
      rw [h1] at h
      cases h
      exact ⟨n, _, _, hn, h2⟩

/-! ### Batches of `Enqueue` and `Dequeue` calls -/

theorem enqQ_length_le (c : Nat) (q : List (Option α)) (v : Option α) (hc : 0 < c)
    (hq : q.length ≤ c) : (enqQ c q v).length ≤ c := by
  unfold enqQ
  split_ifs <;> simp <;> omega

theorem enqQ_eq_drop (c : Nat) (q : List (Option α)) (v : Option α) (hc : 0 < c)
    (hq : q.length ≤ c) : enqQ c q v = (q ++ [v]).drop (q.length + 1 - c) := by
  unfold enqQ
  split_ifs with h
  · rw [show q.length + 1 - c = 0 by omega]; rfl
  · rw [show q.length + 1 - c = 1 by omega, List.drop_append_of_le_length (by omega)]

theorem foldl_enqQ (c : Nat) (hc : 0 < c) (vs : List (Option α)) :
    ∀ q : List (Option α), q.length ≤ c →
      vs.foldl (enqQ c) q = (q ++ vs).drop (q.length + vs.length - c) := by
  induction vs with
  | nil =>
    intro q hq
    simp [show q.length - c = 0 by omega]
  | cons v vs ih =>
    intro q hq
    rw [List.foldl_cons, ih _ (enqQ_length_le c q v hc hq), enqQ_eq_drop c q v hc hq]
    rw [← List.drop_append_of_le_length (by simp), List.drop_drop]
    simp only [List.append_assoc, List.singleton_append, List.length_drop,
      List.length_append, List.length_singleton, List.length_cons, List.length_nil]
    congr 1
    omega

theorem Rep.enqueueAll_ok {r : Ring α} {c t : Nat} {q : List (Option α)} (h : Rep r c t q)
    (vs : List (Option α)) :
    ∃ r' t', r.enqueueAll vs = .ok r' ∧ Rep r' c t' (vs.foldl (enqQ c) q) := by
  induction vs generalizing r t q with
  | nil => exact ⟨r, t, rfl, h⟩
  | cons v vs ih =>
    obtain ⟨r1, h1, h2⟩ := h.enqueue_ok v
    obtain ⟨r2, t2, h3, h4⟩ := ih h2
    exact ⟨r2, t2, by simp [enqueueAll, h1, h3, bind, Except.bind], h4⟩

theorem Rep.dequeueN_ok {r : Ring α} {c t : Nat} {q : List (Option α)} (h : Rep r c t q)
    (k : Nat) (hk : k ≤ q.length) :
    ∃ r' t', r.dequeueN k = .ok (q.take k, r') ∧ Rep r' c t' (q.drop k) := by
  induction k generalizing r t q with
  | zero => exact ⟨r, t, rfl, h⟩
  | succ k ih =>
    cases q with
    | nil => simp at hk
    | cons a q' =>
      obtain ⟨r1, h1, h2⟩ := h.dequeue_cons
      obtain ⟨r2, t2, h3, h4⟩ := ih h2 (by simpa using hk)
      exact ⟨r2, t2, by simp [dequeueN, h1, h3, bind, Except.bind, pure, Except.pure], h4⟩

/-! ## The laws of the ring -/

/-- C1, FIFO law: for every capacity `c > 0` and every list `vs = v1..ve` of
values with `e ≤ c`, `New(c)` returns a ring, `Enqueue(v1), ..., Enqueue(ve)` on it
succeed, and `e` calls of `Dequeue` then return exactly `v1, ..., ve` in that
order. -/
theorem fifo_law (c : Int) (vs : List (Option α)) (hc : 0 < c)
    (he : (vs.length : Int) ≤ c) :
    ∃ r0 r1 r2 : Ring α, New c = .ok r0 ∧ r0.enqueueAll vs = .ok r1
      ∧ r1.dequeueN vs.length = .ok (vs, r2) := by
  obtain ⟨n, rfl⟩ : ∃ n : Nat, c = (n : Int) := ⟨c.toNat, (Int.toNat_of_nonneg hc.le).symm⟩
  have hn : 0 < n := by omega
  obtain ⟨r1, t1, h1, h2⟩ := (@Rep_fresh α n hn).enqueueAll_ok vs
  rw [foldl_enqQ n hn vs [] (by simp)] at h2
  simp only [List.nil_append, List.length_nil, Nat.zero_add] at h2
  rw [show vs.length - n = 0 by omega, List.drop_zero] at h2
  obtain ⟨r2, t2, h3, _⟩ := h2.dequeueN_ok vs.length (le_refl _)
  rw [List.take_length] at h3
  exact ⟨fresh n, r1, r2, New_pos n, h1, h3⟩

/-- Witness of the FIFO law: capacity 3, values 1, 2. -/
theorem fifo_law_witness :
    ∃ r0 r1 r2 : Ring Nat, New 3 = .ok r0 ∧ r0.enqueueAll [some 1, some 2] = .ok r1
      ∧ r1.dequeueN 2 = .ok ([some 1, some 2], r2) :=
  fifo_law 3 [some 1, some 2] (by decide) (by decide)

/-- C2, overwrite law: for every capacity `c > 0` and every list `vs = v1..ve`
with `e > c`, after `Enqueue(v1), ..., Enqueue(ve)` on `New(c)` the call `Tail()`
returns `v(e-c+1)` (index `e - c` from 0), `Peek()` returns `ve`, `c` successive
`Dequeue` calls return `v(e-c+1), ..., ve` in that order, and `Tail()` then
returns no value. -/
theorem overwrite_law (c : Int) (vs : List (Option α)) (hc : 0 < c)
    (he : c < (vs.length : Int)) :
    ∃ (r0 r1 r2 : Ring α) (vt vh : Option α),
      New c = .ok r0 ∧ r0.enqueueAll vs = .ok r1
      ∧ vs[vs.length - c.toNat]? = some vt ∧ r1.Tail = .ok (vt, r1)
      ∧ vs[vs.length - 1]? = some vh ∧ r1.Peek = .ok (vh, r1)
      ∧ r1.dequeueN c.toNat = .ok (vs.drop (vs.length - c.toNat), r2)
      ∧ r2.Tail = .ok (none, r2) := by
  obtain ⟨n, rfl⟩ : ∃ n : Nat, c = (n : Int) := ⟨c.toNat, (Int.toNat_of_nonneg hc.le).symm⟩
  have hn : 0 < n := by omega
  have hlt : n < vs.length := by omega
  obtain ⟨r1, t1, h1, h2⟩ := (@Rep_fresh α n hn).enqueueAll_ok vs
  rw [foldl_enqQ n hn vs [] (by simp)] at h2
  simp only [List.nil_append, List.length_nil, Nat.zero_add, Int.toNat_ofNat] at h2 ⊢
  have hlen : (vs.drop (vs.length - n)).length = n := by simp; omega
  obtain ⟨r2, t2, h3, h4⟩ := h2.dequeueN_ok n (by omega)
  rw [List.take_of_length_le (by omega)] at h3
  rw [List.drop_of_length_le (by omega)] at h4
  refine ⟨fresh n, r1, r2, vs.getD (vs.length - n) none, vs.getD (vs.length - 1) none,
    New_pos n, h1, ?_, ?_, ?_, ?_, h3, h4.tail_ok⟩
  · simp [List.getElem?_eq_getElem (show vs.length - n < vs.length by omega)]
  · rw [h2.tail_ok]
    simp [List.getElem?_drop]
  · simp [List.getElem?_eq_getElem (show vs.length - 1 < vs.length by omega)]
  · rw [h2.peek_ok, hlen]
    simp only [List.getD_eq_getElem?_getD, List.getElem?_drop]
    rw [show vs.length - n + (n - 1) = vs.length - 1 by omega]

/-- Witness of the overwrite law: capacity 3, values 1..5 (the scenario of the
specification: `Tail()` is 3, `Peek()` is 5). -/
theorem overwrite_law_witness :
    ∃ (r0 r1 r2 : Ring Nat) (vt vh : Option Nat),
      New 3 = .ok r0 ∧ r0.enqueueAll [some 1, some 2, some 3, some 4, some 5] = .ok r1
      ∧ [some 1, some 2, some 3, some 4, some 5][5 - 3]? = some vt ∧ r1.Tail = .ok (vt, r1)
      ∧ [some 1, some 2, some 3, some 4, some 5][5 - 1]? = some vh ∧ r1.Peek = .ok (vh, r1)
      ∧ r1.dequeueN 3 = .ok ([some 3, some 4, some 5], r2)
      ∧ r2.Tail = .ok (none, r2) :=
  overwrite_law 3 [some 1, some 2, some 3, some 4, some 5] (by decide) (by decide)

theorem enqQ_snoc (c : Nat) (q : List (Option α)) (v : Option α) :
    ∃ l, enqQ c q v = l ++ [v] := by
  unfold enqQ
  split_ifs
  · exact ⟨q, rfl⟩
  · exact ⟨q.drop 1, rfl⟩

/-- C3: for every ring reachable from `New(c)`, `c > 0`, by `Enqueue` and
`Dequeue` calls and every value `v`, `Enqueue(v)` succeeds and immediately
afterwards `Peek()` returns `v` and `PeekN(1)` returns the one-element
sequence `[v]`. -/
theorem peek_after_enqueue (c : Int) (r : Ring α) (hr : Reach c r) (v : Option α) :
    ∃ r1, r.Enqueue v = .ok r1 ∧ r1.Peek = .ok (v, r1) ∧ r1.PeekN 1 = .ok ([v], r1) := by
  obtain ⟨n, t, q, _, hrep⟩ := hr.rep
  obtain ⟨r1, h1, h2⟩ := hrep.enqueue_ok v
  obtain ⟨l, hl⟩ := enqQ_snoc n q v
  rw [hl] at h2
  refine ⟨r1, h1, ?_, ?_⟩
  · rw [h2.peek_ok]
    simp
  · rw [h2.peekN_ok]
    simp

/-- Witness of C3: a full ring of capacity 2 holding 1, 2,
then `Enqueue(3)`. -/
theorem peek_after_enqueue_witness :
    ∃ r1 : Ring Nat, Ring.Enqueue ⟨1, 0, [some 1, some 2]⟩ (some 3) = .ok r1
      ∧ r1.Peek = .ok (some 3, r1) ∧ r1.PeekN 1 = .ok ([some 3], r1) :=
  peek_after_enqueue 2 ⟨1, 0, [some 1, some 2]⟩
    (.enqueue ⟨0, 0, [some 1, none]⟩ _ (some 2)
      (.enqueue ⟨-1, 0, [none, none]⟩ _ (some 1) (.new _ (by decide) rfl) rfl) rfl)
    (some 3)

/-- C4 as stated fails: on `New(2)` after `Enqueue(1)`, `Enqueue(2)` the call
`Peek()` returns 2, the most recent value, while `Dequeue()` on that same ring
returns 1, the oldest value. -/
theorem peek_is_not_dequeue :
    (New 2 : Except Fault (Ring Nat)) = .ok ⟨-1, 0, [none, none]⟩
      ∧ Ring.enqueueAll ⟨-1, 0, [none, none]⟩ [some 1, some 2]
          = .ok ⟨1, 0, [some 1, some 2]⟩
      ∧ Ring.Peek ⟨1, 0, [some 1, some 2]⟩ = .ok (some 2, ⟨1, 0, [some 1, some 2]⟩)
      ∧ Ring.Dequeue ⟨1, 0, [some 1, some 2]⟩ = .ok (some 1, ⟨1, 1, [some 1, some 2]⟩) :=
  ⟨rfl, rfl, rfl, rfl⟩

/-- C4 as amended: for every ring reachable from `New(c)`, `c > 0`, `Peek()`
returns without removing it the value stored at `head` (the most recently
enqueued value) and leaves the ring unchanged; this is the value `Dequeue()`
would have returned on that same ring when the ring holds at most one element
(`head = -1` or `head = tail`); if the ring is empty it returns nil. -/
theorem peek_reads_head (c : Int) (r : Ring α) (hr : Reach c r) :
    ∃ v, r.Peek = .ok (v, r)
      ∧ (r.head = -1 → v = none)
      ∧ (r.head ≠ -1 → r.index r.head = .ok v)
      ∧ (r.head = -1 ∨ r.head = r.tail → ∃ r1, r.Dequeue = .ok (v, r1)) := by
  obtain ⟨n, t, q, _, hrep⟩ := hr.rep
  refine ⟨_, hrep.peek_ok, ?_, ?_, ?_⟩
  · intro h
    have : q = [] := List.length_eq_zero.1 (hrep.head_empty.1 h)
    subst this
    rfl
  · intro h
    have h0 : q.length ≠ 0 := fun e => h (hrep.head_empty.2 e)
    have hs := hrep.head_slot h0
    rw [hrep.head_eq, if_neg h0] at hs ⊢
    rw [get_natCast r n _ hrep.cpos hrep.len, Nat.mod_mod] at hs
    rw [index_natCast r _ (by rw [hrep.len]; exact Nat.mod_lt _ hrep.cpos)]
    exact hs
  · intro h
    cases q with
    | nil => exact ⟨r, hrep.dequeue_nil⟩
    | cons a q' =>
      obtain ⟨r1, h1, _⟩ := hrep.dequeue_cons
      have hne : r.head ≠ -1 := fun e => by simpa using hrep.head_empty.1 e
      have h := h.resolve_left hne
      have hq : q'.length = 0 := by
        have e1 := hrep.head_eq
        have ht := hrep.tlt
        have hl := hrep.qlen
        rw [h, hrep.tail_eq, if_neg (by simp)] at e1
        simp only [List.length_cons] at e1 hl
        have e2 : t = (t + (q'.length + 1) - 1) % n := by exact_mod_cast e1
        have := mod_add_inj n t 0 q'.length ht hrep.cpos (by omega)
          (by rw [Nat.add_zero, Nat.mod_eq_of_lt ht]; rw [e2]; congr 1; omega)
        omega
      have : q' = [] := List.length_eq_zero.1 hq
      subst this
      exact ⟨r1, by simpa using h1⟩

/-- Witness of C4 as amended: the ring of capacity 2 that holds the single
value 1. -/
theorem peek_reads_head_witness :
    ∃ v : Option Nat, Ring.Peek ⟨0, 0, [some 1, none]⟩ = .ok (v, ⟨0, 0, [some 1, none]⟩)
      ∧ ((0 : Int) = -1 → v = none)
      ∧ ((0 : Int) ≠ -1 → Ring.index ⟨0, 0, [some 1, none]⟩ 0 = .ok v)
      ∧ ((0 : Int) = -1 ∨ (0 : Int) = 0 →
          ∃ r1, Ring.Dequeue ⟨0, 0, [some 1, none]⟩ = .ok (v, r1)) :=
  peek_reads_head 2 ⟨0, 0, [some 1, none]⟩
    (.enqueue ⟨-1, 0, [none, none]⟩ _ (some 1) (.new _ (by decide) rfl) rfl)

/-- C5: for every ring reachable from `New(c)`, `c > 0`, `Tail()` returns
exactly the value that an immediately following `Dequeue()` returns: the value
stored at `tail` (the oldest retained element) when the ring is non-empty, no
value when it is empty; and `Tail()` leaves head, tail and storage unchanged. -/
theorem tail_is_next_dequeue (c : Int) (r : Ring α) (hr : Reach c r) :
    ∃ v r1, r.Tail = .ok (v, r) ∧ r.Dequeue = .ok (v, r1)
      ∧ (r.head = -1 → v = none)
      ∧ (r.head ≠ -1 → r.index r.tail = .ok v) := by
  obtain ⟨n, t, q, _, hrep⟩ := hr.rep
  cases q with
  | nil =>
    refine ⟨none, r, hrep.tail_ok, hrep.dequeue_nil, fun _ => rfl, fun h => ?_⟩
    exact absurd (hrep.head_empty.2 rfl) h
  | cons a q' =>
    obtain ⟨r1, h1, _⟩ := hrep.dequeue_cons
    refine ⟨a, r1, by simpa using hrep.tail_ok, h1, fun h => ?_, fun _ => ?_⟩
    · simpa using hrep.head_empty.1 h
    · have hs := hrep.slots 0 (by simp)
      rw [hrep.tail_eq, index_natCast r t (by rw [hrep.len]; exact hrep.tlt)]
      rw [Nat.add_zero, Nat.mod_eq_of_lt hrep.tlt] at hs
      rw [hs]
      simp

/-- Witness of C5: the full ring of capacity 2 holding 1, 2. -/
theorem tail_is_next_dequeue_witness :
    ∃ (v : Option Nat) (r1 : Ring Nat),
      Ring.Tail ⟨1, 0, [some 1, some 2]⟩ = .ok (v, ⟨1, 0, [some 1, some 2]⟩)
      ∧ Ring.Dequeue ⟨1, 0, [some 1, some 2]⟩ = .ok (v, r1)
      ∧ ((1 : Int) = -1 → v = none)
      ∧ ((1 : Int) ≠ -1 → Ring.index ⟨1, 0, [some 1, some 2]⟩ 0 = .ok v) :=
  tail_is_next_dequeue 2 ⟨1, 0, [some 1, some 2]⟩
    (.enqueue ⟨0, 0, [some 1, none]⟩ _ (some 2)
      (.enqueue ⟨-1, 0, [none, none]⟩ _ (some 1) (.new _ (by decide) rfl) rfl) rfl)

theorem emod_of_shift (a m j c : Int) (h : a = m + j * c) (h0 : 0 ≤ m) (h1 : m < c) :
    a % c = m := by
  rw [h, Int.add_mul_emod_self, Int.emod_eq_of_lt h0 h1]

theorem Rep.head_sub_emod {r : Ring α} {c t : Nat} {q : List (Option α)} (h : Rep r c t q)
    (k : Nat) (hk : k < q.length) :
    (r.head - (k : Int)) % r.cap = (((t + (q.length - 1 - k)) % c : Nat) : Int) := by
  have hc := h.cpos
  have ht := h.tlt
  have hq := h.qlen
  have hcap : r.cap = (c : Int) := by simp [cap, h.len]
  have hm : (t + (q.length - 1 - k)) % c < c := Nat.mod_lt _ hc
  rw [hcap, h.head_eq, if_neg (by omega)]
  have key : ∃ j : Int, (((t + q.length - 1) % c : Nat) : Int) - (k : Int)
      = (((t + (q.length - 1 - k)) % c : Nat) : Int) + j * (c : Int) := by
    rw [mod_two_mul c (t + q.length - 1) (by omega),
      mod_two_mul c (t + (q.length - 1 - k)) (by omega)]
    split_ifs
    · exact ⟨0, by omega⟩
    · exact ⟨1, by omega⟩
    · exact ⟨-1, by omega⟩
    · exact ⟨0, by omega⟩
  obtain ⟨j, hj⟩ := key
  exact emod_of_shift _ _ j _ hj (by omega) (by omega)

theorem Rep.occupancy_eq {r : Ring α} {c t : Nat} {q : List (Option α)} (h : Rep r c t q) :
    r.occupancy = (q.length : Int) := by
  unfold occupancy
  by_cases h0 : q.length = 0
  · rw [if_pos (h.head_empty.2 h0), h0]; rfl
  · rw [if_neg (fun e => h0 (h.head_empty.1 e))]
    have hc := h.cpos
    have ht := h.tlt
    have hq := h.qlen
    have hcap : r.cap = (c : Int) := by simp [cap, h.len]
    rw [hcap, h.head_eq, if_neg h0, h.tail_eq]
    have key : ∃ j : Int, (((t + q.length - 1) % c : Nat) : Int) - (t : Int)
        = ((q.length - 1 : Nat) : Int) + j * (c : Int) := by
      rw [mod_two_mul c (t + q.length - 1) (by omega)]
      split_ifs
      · exact ⟨0, by omega⟩
      · exact ⟨-1, by omega⟩
    obtain ⟨j, hj⟩ := key
    rw [emod_of_shift _ _ j _ hj (by omega) (by omega)]
    omega

theorem Rep.peekN_slot {r : Ring α} {c t : Nat} {q : List (Option α)} (h : Rep r c t q)
    (k : Nat) (hk : k < q.length) :
    q.reverse[k]? = some (q.getD (q.length - 1 - k) none)
      ∧ r.index ((r.head - (k : Int)) % r.cap) = .ok (q.getD (q.length - 1 - k) none) := by
  constructor
  · rw [List.getElem?_reverse hk]
    simp [List.getElem?_eq_getElem (show q.length - 1 - k < q.length by omega)]
  · rw [h.head_sub_emod k hk,
      index_natCast r _ (by rw [h.len]; exact Nat.mod_lt _ h.cpos),
      h.slots _ (by omega)]

/-- C6: for every ring reachable from `New(c)`, `c > 0`, and every integer `n`,
`PeekN(n)` returns (leaving the ring unchanged) a sequence of length exactly
`max(0, min(n, occupancy))` whose `k`-th element (from 0) is the stored value at
slot `(head - k) floor-mod c`, most recent first.  In particular, after `e`
enqueues on `New(c)`, `PeekN(p)` has length `min(c, e, p)` for `p ≥ 0` and lists
the enqueued values from the most recently enqueued one backwards. -/
theorem peekN_spec (c : Int) :
    (∀ r : Ring α, Reach c r → ∀ n : Int, ∃ b, r.PeekN n = .ok (b, r)
        ∧ (b.length : Int) = max 0 (min n r.occupancy)
        ∧ ∀ k : Nat, k < b.length →
            ∃ v, b[k]? = some v ∧ r.index ((r.head - (k : Int)) % r.cap) = .ok v)
    ∧ (0 < c → ∀ (vs : List (Option α)) (p : Int), 0 ≤ p →
        ∃ r0 r1 b, New c = .ok r0 ∧ r0.enqueueAll vs = .ok r1
          ∧ r1.PeekN p = .ok (b, r1)
          ∧ (b.length : Int) = min c (min (vs.length : Int) p)
          ∧ b = (vs.reverse.take c.toNat).take p.toNat) := by
  constructor
  · intro r hr n
    obtain ⟨m, t, q, _, hrep⟩ := hr.rep
    refine ⟨_, hrep.peekN_ok n, ?_, ?_⟩
    · rw [hrep.occupancy_eq]
      simp only [List.length_take, List.length_reverse]
      omega
    · intro k hk
      simp only [List.length_take, List.length_reverse] at hk
      obtain ⟨h1, h2⟩ := hrep.peekN_slot k (by omega)
      refine ⟨_, ?_, h2⟩
      rw [List.getElem?_take_of_lt (by omega)]
      exact h1
  · intro hc vs p hp
    obtain ⟨n, rfl⟩ : ∃ n : Nat, c = (n : Int) := ⟨c.toNat, (Int.toNat_of_nonneg hc.le).symm⟩
    have hn : 0 < n := by omega
    obtain ⟨r1, t1, h1, h2⟩ := (@Rep_fresh α n hn).enqueueAll_ok vs
    rw [foldl_enqQ n hn vs [] (by simp)] at h2
    refine ⟨fresh n, r1, _, New_pos n, h1, h2.peekN_ok p, ?_, ?_⟩
    · simp only [List.nil_append, List.length_nil, Nat.zero_add, List.length_take,
        List.length_reverse, List.length_drop]
      omega
    · simp only [List.nil_append, List.length_nil, Nat.zero_add, Int.toNat_ofNat]
      rw [@List.take_reverse _ vs n]

/-- Witness of C6: the ring of capacity 3 after enqueueing 1..5, `PeekN(2)`. -/
theorem peekN_spec_witness :
    ∃ b : List (Option Nat),
      Ring.PeekN ⟨1, 2, [some 4, some 5, some 3]⟩ 2 = .ok (b, ⟨1, 2, [some 4, some 5, some 3]⟩)
        ∧ (b.length : Int) = max 0 (min 2 (Ring.occupancy ⟨1, 2, [some 4, some 5, some 3]⟩))
        ∧ ∀ k : Nat, k < b.length →
            ∃ v, b[k]? = some v
              ∧ Ring.index ⟨1, 2, [some 4, some 5, some 3]⟩
                  ((1 - (k : Int)) % Ring.cap ⟨1, 2, [some 4, some 5, some 3]⟩) = .ok v :=
  (peekN_spec 3).1 ⟨1, 2, [some 4, some 5, some 3]⟩
    (.enqueue ⟨0, 1, [some 4, some 2, some 3]⟩ _ (some 5)
      (.enqueue ⟨2, 0, [some 1, some 2, some 3]⟩ _ (some 4)
        (.enqueue ⟨1, 0, [some 1, some 2, none]⟩ _ (some 3)
          (.enqueue ⟨0, 0, [some 1, none, none]⟩ _ (some 2)
            (.enqueue ⟨-1, 0, [none, none, none]⟩ _ (some 1)
              (.new _ (by decide) rfl) (by rfl)) (by rfl)) (by rfl)) (by rfl)) (by rfl)) 2

/-- C7: for every capacity `c > 0`, on the freshly constructed ring `New(c)`
the calls `Dequeue()`, `Peek()` and `Tail()` each return no value (nil) and
`PeekN(n)` returns an empty sequence for every integer `n`. -/
theorem fresh_ring_is_empty (c : Int) (hc : 0 < c) :
    ∃ r0 : Ring α, New c = .ok r0
      ∧ r0.Dequeue = .ok (none, r0) ∧ r0.Peek = .ok (none, r0) ∧ r0.Tail = .ok (none, r0)
      ∧ ∀ n : Int, r0.PeekN n = .ok ([], r0) := by
  obtain ⟨m, rfl⟩ : ∃ m : Nat, c = (m : Int) := ⟨c.toNat, (Int.toNat_of_nonneg hc.le).symm⟩
  have hrep := @Rep_fresh α m (by omega)
  refine ⟨fresh m, New_pos m, hrep.dequeue_nil, hrep.peek_ok, hrep.tail_ok, fun n => ?_⟩
  rw [hrep.peekN_ok n]
  simp

/-- Witness of C7: capacity 5. -/
theorem fresh_ring_is_empty_witness :
    ∃ r0 : Ring Nat, New 5 = .ok r0
      ∧ r0.Dequeue = .ok (none, r0) ∧ r0.Peek = .ok (none, r0) ∧ r0.Tail = .ok (none, r0)
      ∧ ∀ n : Int, r0.PeekN n = .ok ([], r0) :=
  fresh_ring_is_empty 5 (by decide)

theorem absRun_capacity (c : Nat) (xs : List (Call α)) :
    ∀ (t : Nat) (q : List (Option α)) (i : Nat), xs[i]? = some Call.capacity →
      (absRun c t q xs).1[i]? = some (Ret.int (c : Int)) := by
  induction xs with
  | nil => intro t q i h; simp at h
  | cons x xs ih =>
    intro t q i h
    cases i with
    | zero =>
      simp only [List.getElem?_cons_zero, Option.some.injEq] at h
      subst h
      simp [absRun, absStep]
    | succ i =>
      simp only [List.getElem?_cons_succ] at h
      simpa [absRun] using ih _ _ i h

/-- C9: for every capacity `c > 0` and every sequence of calls applied to
`New(c)`, `Capacity()` returns `c` before the calls, after them (hence after every
prefix of them), and at every `Capacity` call among them. -/
theorem capacity_constant (c : Int) (hc : 0 < c) (cs : List (Call α)) :
    ∃ (r0 : Ring α) (rets : List (Ret α)) (r1 : Ring α),
      New c = .ok r0 ∧ r0.Capacity = .ok (c, r0)
      ∧ r0.run cs = .ok (rets, r1) ∧ r1.Capacity = .ok (c, r1)
      ∧ ∀ i : Nat, cs[i]? = some Call.capacity → rets[i]? = some (Ret.int c) := by
  obtain ⟨n, rfl⟩ : ∃ n : Nat, c = (n : Int) := ⟨c.toNat, (Int.toNat_of_nonneg hc.le).symm⟩
  have h0 := @Rep_fresh α n (by omega)
  obtain ⟨r1, h1, h2⟩ := h0.run_ok cs
  refine ⟨fresh n, _, r1, New_pos n, ?_, h1, ?_, fun i hi => absRun_capacity n cs 0 [] i hi⟩
  · simp [Capacity, cap, h0.len]
  · simp [Capacity, cap, h2.len]

/-- Witness of C9: capacity 2, calls `Enqueue(1)`, `Capacity()`, `Enqueue(2)`,
`Enqueue(3)`, `PeekN(5)`, `Dequeue()`. -/
theorem capacity_constant_witness :
    ∃ (r0 : Ring Nat) (rets : List (Ret Nat)) (r1 : Ring Nat),
      New 2 = .ok r0 ∧ r0.Capacity = .ok (2, r0)
      ∧ r0.run [.enqueue (some 1), .capacity, .enqueue (some 2), .enqueue (some 3),
          .peekN 5, .dequeue] = .ok (rets, r1)
      ∧ r1.Capacity = .ok (2, r1)
      ∧ ∀ i : Nat, [Call.enqueue (some 1), .capacity, .enqueue (some 2), .enqueue (some 3),
          .peekN 5, .dequeue][i]? = some Call.capacity → rets[i]? = some (Ret.int 2) :=
  capacity_constant 2 (by decide)
    [.enqueue (some 1), .capacity, .enqueue (some 2), .enqueue (some 3), .peekN 5, .dequeue]

/-- C10: for every ring built by `New(c)` with `c > 0` and every finite
sequence of `Enqueue`, `Dequeue`, `Peek`, `Tail`, `PeekN` and `Capacity` calls, no
call faults (no slice index outside `[0, c)`, no modulus by zero, and the loop
of `PeekN` ends within its budget); in particular `Enqueue` succeeds on every
reachable ring, a full one included. -/
theorem no_call_faults (c : Int) (hc : 0 < c) :
    (∀ cs : List (Call α), ∃ (r0 : Ring α) (rets : List (Ret α)) (r1 : Ring α),
        New c = .ok r0 ∧ r0.run cs = .ok (rets, r1))
    ∧ (∀ r : Ring α, Reach c r → ∀ e : Option α, ∃ r1, r.Enqueue e = .ok r1) := by
  obtain ⟨n, rfl⟩ : ∃ n : Nat, c = (n : Int) := ⟨c.toNat, (Int.toNat_of_nonneg hc.le).symm⟩
  constructor
  · intro cs
    obtain ⟨r1, h1, _⟩ := (@Rep_fresh α n (by omega)).run_ok cs
    exact ⟨fresh n, _, r1, New_pos n, h1⟩
  · intro r hr e
    obtain ⟨m, t, q, _, hrep⟩ := hr.rep
    obtain ⟨r1, h1, _⟩ := hrep.enqueue_ok e
    exact ⟨r1, h1⟩

/-- Witness of C10: `Enqueue(3)` on the full ring of capacity 2 holding 1, 2. -/
theorem no_call_faults_witness :
    ∃ r1 : Ring Nat, Ring.Enqueue ⟨1, 0, [some 1, some 2]⟩ (some 3) = .ok r1 :=
  (no_call_faults 2 (by decide)).2 ⟨1, 0, [some 1, some 2]⟩
    (.enqueue ⟨0, 0, [some 1, none]⟩ _ (some 2)
      (.enqueue ⟨-1, 0, [none, none]⟩ _ (some 1) (.new _ (by decide) rfl) (by rfl)) (by rfl))
    (some 3)

/-- C11 as stated fails: `New(0)` is not rejected, it returns a ring with an
empty backing slice, `head = -1` and `tail = 0`. -/
theorem new_zero_returns_ring :
    (New 0 : Except Fault (Ring Nat)) = .ok ⟨-1, 0, []⟩ :=
  rfl

/-- C11 as amended: construction never validates the capacity.  For every
integer `c < 0`, `New(c)` fails (the run-time panic of `make` for a negative
length) instead of returning a ring; `New(0)` returns a ring of capacity 0 with
`head = -1` and `tail = 0`. -/
theorem new_nonpositive (c : Int) (hc : c ≤ 0) :
    (c < 0 → (New c : Except Fault (Ring α)) = .error .makeSliceLen)
      ∧ (c = 0 → (New c : Except Fault (Ring α)) = .ok ⟨-1, 0, []⟩
          ∧ Ring.Capacity (⟨-1, 0, []⟩ : Ring α) = .ok (0, ⟨-1, 0, []⟩)) := by
  constructor
  · intro h
    simp [New, h]
  · intro h
    subst h
    exact ⟨rfl, rfl⟩

/-- Witness of C11 as amended: capacity -1. -/
theorem new_nonpositive_witness :
    (New (-1) : Except Fault (Ring Nat)) = .error .makeSliceLen :=
  (new_nonpositive (-1) (by decide)).1 (by decide)

/-- C12: `Peek`, `Tail`, `PeekN` and `Capacity` are read-only.  For every ring
state `r` and every integer `n`, each of these calls that returns hands back the
ring with head, tail and storage unchanged, so the same call made again right
away returns the identical result; `Capacity` always returns, and on every
reachable ring the other three return as well. -/
theorem readers_leave_ring_unchanged (r : Ring α) (n : Int) :
    r.Capacity = .ok (r.cap, r)
      ∧ (∀ v r1, r.Peek = .ok (v, r1) → r1 = r ∧ r1.Peek = .ok (v, r1))
      ∧ (∀ v r1, r.Tail = .ok (v, r1) → r1 = r ∧ r1.Tail = .ok (v, r1))
      ∧ (∀ b r1, r.PeekN n = .ok (b, r1) → r1 = r ∧ r1.PeekN n = .ok (b, r1))
      ∧ (∀ c, Reach c r → ∃ v w b,
          r.Peek = .ok (v, r) ∧ r.Tail = .ok (w, r) ∧ r.PeekN n = .ok (b, r)) := by
  refine ⟨rfl, ?_, ?_, ?_, ?_⟩
  · intro v r1 h
    have e : r1 = r := by
      unfold Peek at h
      split_ifs at h
      · cases h; rfl
      · cases hg : r.get r.head with
        | error x => rw [hg] at h; cases h
        | ok a => rw [hg] at h; cases h; rfl
    subst e
    exact ⟨rfl, h⟩
  · intro v r1 h
    have e : r1 = r := by
      unfold Tail at h
      split_ifs at h
      · cases h; rfl
      · cases hg : r.get r.tail with
        | error x => rw [hg] at h; cases h
        | ok a => rw [hg] at h; cases h; rfl
    subst e
    exact ⟨rfl, h⟩
  · intro b r1 h
    have e : r1 = r := by
      unfold PeekN at h
      split_ifs at h
      · cases h; rfl
      · cases h; rfl
      · cases hg : peekLoop r n n.toNat r.head [] with
        | error x => rw [hg] at h; cases h
        | ok a => rw [hg] at h; cases h; rfl
    subst e
    exact ⟨rfl, h⟩
  · intro c hr
    obtain ⟨m, t, q, _, hrep⟩ := hr.rep
    exact ⟨_, _, _, hrep.peek_ok, hrep.tail_ok, hrep.peekN_ok n⟩

theorem Rep.contents_eq {r : Ring α} {c t : Nat} {q : List (Option α)} (h : Rep r c t q) :
    r.contents = q := by
  unfold contents
  by_cases h0 : q.length = 0
  · rw [if_pos (h.head_empty.2 h0)]
    exact (List.length_eq_zero.1 h0).symm
  · rw [if_neg (fun e => h0 (h.head_empty.1 e)), h.occupancy_eq, Int.toNat_ofNat]
    have hcap : r.cap = (c : Int) := by simp [cap, h.len]
    apply List.ext_getElem
    · simp
    · intro k h1 h2
      simp only [List.length_map, List.length_range] at h1
      simp only [List.getElem_map, List.getElem_range]
      rw [hcap, h.tail_eq]
      have e : ((t : Int) + (k : Int)) % (c : Int) = (((t + k) % c : Nat) : Int) := by
        push_cast
        rfl
      rw [e, Int.toNat_ofNat, h.slots k h1]
      simp [List.getElem?_eq_getElem h1]

/-- C13, cursor invariant: in every state reachable from `New(c)`, `c > 0`, by
`Enqueue` and `Dequeue` calls, `0 ≤ tail < c` holds, and either `head = -1` and the
ring holds zero elements, or `0 ≤ head < c` and the ring holds at least one
element. -/
theorem cursor_invariant (c : Int) (r : Ring α) (hr : Reach c r) :
    0 ≤ r.tail ∧ r.tail < c
      ∧ ((r.head = -1 ∧ r.contents = [] ∧ r.occupancy = 0)
        ∨ (0 ≤ r.head ∧ r.head < c ∧ r.contents ≠ [] ∧ 1 ≤ r.occupancy)) := by
  obtain ⟨n, t, q, rfl, hrep⟩ := hr.rep
  have ht := hrep.tlt
  refine ⟨by rw [hrep.tail_eq]; omega, by rw [hrep.tail_eq]; omega, ?_⟩
  rw [hrep.contents_eq, hrep.occupancy_eq]
  by_cases h0 : q.length = 0
  · left
    exact ⟨hrep.head_empty.2 h0, List.length_eq_zero.1 h0, by omega⟩
  · right
    have hm : (t + q.length - 1) % n < n := Nat.mod_lt _ hrep.cpos
    rw [hrep.head_eq, if_neg h0]
    exact ⟨by omega, by omega, fun e => h0 (by rw [e]; rfl), by omega⟩

/-- Witness of C13: the ring of capacity 3 after enqueueing 1, 2, 3, 4. -/
theorem cursor_invariant_witness :
    (0 : Int) ≤ 1 ∧ (1 : Int) < 3
      ∧ (((0 : Int) = -1 ∧ Ring.contents (⟨0, 1, [some 4, some 2, some 3]⟩ : Ring Nat) = []
            ∧ Ring.occupancy (⟨0, 1, [some 4, some 2, some 3]⟩ : Ring Nat) = 0)
        ∨ ((0 : Int) ≤ 0 ∧ (0 : Int) < 3
            ∧ Ring.contents (⟨0, 1, [some 4, some 2, some 3]⟩ : Ring Nat) ≠ []
            ∧ 1 ≤ Ring.occupancy (⟨0, 1, [some 4, some 2, some 3]⟩ : Ring Nat))) :=
  cursor_invariant 3 ⟨0, 1, [some 4, some 2, some 3]⟩
    (.enqueue ⟨2, 0, [some 1, some 2, some 3]⟩ _ (some 4)
      (.enqueue ⟨1, 0, [some 1, some 2, none]⟩ _ (some 3)
        (.enqueue ⟨0, 0, [some 1, none, none]⟩ _ (some 2)
          (.enqueue ⟨-1, 0, [none, none, none]⟩ _ (some 1)
            (.new _ (by decide) rfl) (by rfl)) (by rfl)) (by rfl)) (by rfl))

theorem getLast?_of_ne_nil (q : List (Option α)) (h : q ≠ []) :
    q.getLast? = some (q.getD (q.length - 1) none) := by
  have hl : q.length - 1 < q.length := by
    have := List.length_pos.2 h
    omega
  rw [List.getLast?_eq_getElem?]
  simp [List.getElem?_eq_getElem hl]

theorem head?_of_ne_nil (q : List (Option α)) (h : q ≠ []) :
    q.head? = some (q.getD 0 none) := by
  cases q with
  | nil => exact absurd rfl h
  | cons a q' => simp

theorem enqQ_eq_bounded (c : Nat) (q : List (Option α)) (v : Option α) (hc : 0 < c)
    (hq : q.length ≤ c) :
    enqQ c q v = if (c : Int) < ((q ++ [v]).length : Int) then (q ++ [v]).drop 1
      else q ++ [v] := by
  unfold enqQ
  by_cases h : q.length < c
  · rw [if_pos h, if_neg (by simp; omega)]
  · rw [if_neg h, if_pos (by simp; omega), List.drop_append_of_le_length (by omega)]

/-- C14, refinement of a bounded queue: with `contents` as the specification
defines it, `contents(New(c)) = []`, and for every ring `r` reachable from
`New(c)`, `c > 0`: after `Enqueue(v)` the contents are `contents(r) ++ [v]` with the
first element dropped if the length would exceed `c`; `Dequeue` returns the first
element of `contents(r)` and leaves the remaining list (or returns no value and
leaves `[]` when empty); `Peek` returns the last element, `Tail` the first
element (no value when empty), and `PeekN(n)` the first `n` elements of the
reversed list. -/
theorem refines_bounded_queue (c : Int) (hc : 0 < c) :
    (∃ r0 : Ring α, New c = .ok r0 ∧ r0.contents = [])
    ∧ ∀ r : Ring α, Reach c r →
      (∀ v, ∃ r1, r.Enqueue v = .ok r1
          ∧ r1.contents = if c < ((r.contents ++ [v]).length : Int)
              then (r.contents ++ [v]).drop 1 else r.contents ++ [v])
      ∧ (∃ v r1, r.Dequeue = .ok (v, r1)
          ∧ ((r.contents = [] ∧ v = none ∧ r1.contents = [])
            ∨ r.contents = v :: r1.contents))
      ∧ (∃ v, r.Peek = .ok (v, r) ∧ (r.contents = [] → v = none)
          ∧ (r.contents ≠ [] → r.contents.getLast? = some v))
      ∧ (∃ v, r.Tail = .ok (v, r) ∧ (r.contents = [] → v = none)
          ∧ (r.contents ≠ [] → r.contents.head? = some v))
      ∧ (∀ n : Int, r.PeekN n = .ok (r.contents.reverse.take n.toNat, r)) := by
  constructor
  · obtain ⟨n, rfl⟩ : ∃ n : Nat, c = (n : Int) :=
      ⟨c.toNat, (Int.toNat_of_nonneg hc.le).symm⟩
    exact ⟨fresh n, New_pos n, (Rep_fresh n (by omega)).contents_eq⟩
  · intro r hr
    obtain ⟨n, t, q, rfl, hrep⟩ := hr.rep
    rw [hrep.contents_eq]
    refine ⟨fun v => ?_, ?_, ?_, ?_, fun k => hrep.peekN_ok k⟩
    · obtain ⟨r1, h1, h2⟩ := hrep.enqueue_ok v
      exact ⟨r1, h1, by rw [h2.contents_eq, enqQ_eq_bounded n q v hrep.cpos hrep.qlen]⟩
    · cases q with
      | nil => exact ⟨none, r, hrep.dequeue_nil, Or.inl ⟨rfl, rfl, hrep.contents_eq⟩⟩
      | cons a q' =>
        obtain ⟨r1, h1, h2⟩ := hrep.dequeue_cons
        exact ⟨a, r1, h1, Or.inr (by rw [h2.contents_eq])⟩
    · refine ⟨_, hrep.peek_ok, fun e => by rw [e]; rfl, fun e => getLast?_of_ne_nil q e⟩
    · refine ⟨_, hrep.tail_ok, fun e => by rw [e]; rfl, fun e => head?_of_ne_nil q e⟩

/-- Witness of C14: `Enqueue(3)` on the full ring of capacity 2 holding 1, 2. -/
theorem refines_bounded_queue_witness :
    ∃ r1 : Ring Nat, Ring.Enqueue ⟨1, 0, [some 1, some 2]⟩ (some 3) = .ok r1
      ∧ r1.contents = if (2 : Int) <
            ((Ring.contents (⟨1, 0, [some 1, some 2]⟩ : Ring Nat) ++ [some 3]).length : Int)
          then (Ring.contents (⟨1, 0, [some 1, some 2]⟩ : Ring Nat) ++ [some 3]).drop 1
          else Ring.contents (⟨1, 0, [some 1, some 2]⟩ : Ring Nat) ++ [some 3] :=
  ((refines_bounded_queue 2 (by decide)).2 ⟨1, 0, [some 1, some 2]⟩
    (.enqueue ⟨0, 0, [some 1, none]⟩ _ (some 2)
      (.enqueue ⟨-1, 0, [none, none]⟩ _ (some 1) (.new _ (by decide) rfl) (by rfl))
      (by rfl))).1 (some 3)

theorem enqQ_length (c : Nat) (q : List (Option α)) (v : Option α) (hc : 0 < c)
    (hq : q.length ≤ c) :
    (enqQ c q v).length = if q.length < c then q.length + 1 else c := by
  unfold enqQ
  split_ifs
  · simp
  · simp
    omega

/-- C15, occupancy is capped and moves by one: with `occupancy` as the
specification defines it, every ring reachable from `New(c)`, `c > 0`, satisfies
`0 ≤ occupancy ≤ c`; `Enqueue` raises occupancy by exactly 1 when
`occupancy < c` and leaves it at `c` when `occupancy = c`; `Dequeue` lowers
occupancy by exactly 1 when `occupancy > 0` and leaves it at 0 when the ring is
empty. -/
theorem occupancy_moves_by_one (c : Int) (r : Ring α) (hr : Reach c r) :
    0 ≤ r.occupancy ∧ r.occupancy ≤ c
      ∧ (∀ v, ∃ r1, r.Enqueue v = .ok r1
          ∧ r1.occupancy = if r.occupancy < c then r.occupancy + 1 else c)
      ∧ (∃ v r1, r.Dequeue = .ok (v, r1)
          ∧ r1.occupancy = if 0 < r.occupancy then r.occupancy - 1 else 0) := by
  obtain ⟨n, t, q, rfl, hrep⟩ := hr.rep
  have hq := hrep.qlen
  rw [hrep.occupancy_eq]
  refine ⟨by omega, by omega, fun v => ?_, ?_⟩
  · obtain ⟨r1, h1, h2⟩ := hrep.enqueue_ok v
    refine ⟨r1, h1, ?_⟩
    rw [h2.occupancy_eq, enqQ_length n q v hrep.cpos hq]
    split_ifs <;> omega
  · cases q with
    | nil => exact ⟨none, r, hrep.dequeue_nil, by rw [hrep.occupancy_eq]; simp⟩
    | cons a q' =>
      obtain ⟨r1, h1, h2⟩ := hrep.dequeue_cons
      refine ⟨a, r1, h1, ?_⟩
      rw [h2.occupancy_eq]
      simp

/-- Witness of C15: the full ring of capacity 2 holding 1, 2. -/
theorem occupancy_moves_by_one_witness :
    0 ≤ Ring.occupancy (⟨1, 0, [some 1, some 2]⟩ : Ring Nat)
      ∧ Ring.occupancy (⟨1, 0, [some 1, some 2]⟩ : Ring Nat) ≤ 2
      ∧ (∀ v, ∃ r1, Ring.Enqueue (⟨1, 0, [some 1, some 2]⟩ : Ring Nat) v = .ok r1
          ∧ r1.occupancy = if Ring.occupancy (⟨1, 0, [some 1, some 2]⟩ : Ring Nat) < 2
              then Ring.occupancy (⟨1, 0, [some 1, some 2]⟩ : Ring Nat) + 1 else 2)
      ∧ (∃ v r1, Ring.Dequeue (⟨1, 0, [some 1, some 2]⟩ : Ring Nat) = .ok (v, r1)
          ∧ r1.occupancy = if 0 < Ring.occupancy (⟨1, 0, [some 1, some 2]⟩ : Ring Nat)
              then Ring.occupancy (⟨1, 0, [some 1, some 2]⟩ : Ring Nat) - 1 else 0) :=
  occupancy_moves_by_one 2 ⟨1, 0, [some 1, some 2]⟩
    (.enqueue ⟨0, 0, [some 1, none]⟩ _ (some 2)
      (.enqueue ⟨-1, 0, [none, none]⟩ _ (some 1) (.new _ (by decide) rfl) (by rfl))
      (by rfl))

theorem neg_tmod_eq (a b : Int) : (-a).tmod b = -(a.tmod b) := by
  rw [Int.tmod_def, Int.tmod_def, Int.neg_tdiv]
  ring

theorem tmod_emod_congr (p c : Int) : (p.tmod c) % c = p % c := by
  have h : p = p.tmod c + c * p.tdiv c := (Int.tmod_add_tdiv p c).symm
  conv_rhs => rw [h]
  rw [Int.add_mul_emod_self_left]

/-- C16 as stated fails for a negative index: on the ring `New(3)` the call
`mod(-1)` returns `-1`, Go's truncated remainder, which is not a slot of the
backing slice. -/
theorem mod_of_negative_is_negative :
    (New 3 : Except Fault (Ring Nat)) = .ok ⟨-1, 0, [none, none, none]⟩
      ∧ Ring.mod (⟨-1, 0, [none, none, none]⟩ : Ring Nat) (-1) = .ok (-1) :=
  ⟨rfl, rfl⟩

/-- C16 as amended: for every ring of capacity `c > 0` and every integer `p`,
`mod(p)` returns a value congruent to `p` modulo `c`; for every `p ≥ 0` it
satisfies `0 ≤ mod(p) < c` and is the floor modulus of `p`, while for `p < 0` it is
the truncated remainder, in `(-c, 0]`.  On every reachable ring the indices the
package passes to `mod` (`head + 1`, `head` when non-empty, `tail`, `tail + 1`) are
non-negative. -/
theorem mod_spec (r : Ring α) (p : Int) (hc : 0 < r.cap) :
    ∃ m, r.mod p = .ok m ∧ m % r.cap = p % r.cap
      ∧ (0 ≤ p → 0 ≤ m ∧ m < r.cap ∧ m = p % r.cap)
      ∧ (p < 0 → -r.cap < m ∧ m ≤ 0)
      ∧ (∀ c, Reach c r → 0 ≤ r.head + 1 ∧ (r.head ≠ -1 → 0 ≤ r.head) ∧ 0 ≤ r.tail) := by
  refine ⟨p.tmod r.cap, ?_, tmod_emod_congr p r.cap, ?_, ?_, ?_⟩
  · unfold mod
    rw [if_neg (by omega)]
  · intro hp
    exact ⟨Int.tmod_nonneg _ hp, Int.tmod_lt_of_pos _ hc, Int.tmod_eq_emod hp hc.le⟩
  · intro hp
    have e : p.tmod r.cap = -((-p).tmod r.cap) := by
      rw [neg_tmod_eq, neg_neg]
    have h1 : 0 ≤ (-p).tmod r.cap := Int.tmod_nonneg _ (by omega)
    have h2 : (-p).tmod r.cap < r.cap := Int.tmod_lt_of_pos _ hc
    rw [e]
    constructor <;> omega
  · intro c hr
    obtain ⟨n, t, q, _, hrep⟩ := hr.rep
    rw [hrep.tail_eq, hrep.head_eq]
    split_ifs
    · exact ⟨by omega, fun h => absurd rfl h, by omega⟩
    · exact ⟨by omega, fun _ => by omega, by omega⟩

/-- Witness of C16 as amended: the full ring of capacity 3 holding 1, 2, 3 and
the index `head + 1 = 3`. -/
theorem mod_spec_witness :
    ∃ m, Ring.mod (⟨2, 0, [some 1, some 2, some 3]⟩ : Ring Nat) 3 = .ok m
      ∧ m % Ring.cap (⟨2, 0, [some 1, some 2, some 3]⟩ : Ring Nat)
          = 3 % Ring.cap (⟨2, 0, [some 1, some 2, some 3]⟩ : Ring Nat)
      ∧ ((0 : Int) ≤ 3 → 0 ≤ m ∧ m < Ring.cap (⟨2, 0, [some 1, some 2, some 3]⟩ : Ring Nat)
          ∧ m = 3 % Ring.cap (⟨2, 0, [some 1, some 2, some 3]⟩ : Ring Nat))
      ∧ ((3 : Int) < 0 → -Ring.cap (⟨2, 0, [some 1, some 2, some 3]⟩ : Ring Nat) < m ∧ m ≤ 0)
      ∧ (∀ c, Reach c (⟨2, 0, [some 1, some 2, some 3]⟩ : Ring Nat) →
          (0 : Int) ≤ 2 + 1 ∧ ((2 : Int) ≠ -1 → (0 : Int) ≤ 2) ∧ (0 : Int) ≤ 0) :=
  mod_spec ⟨2, 0, [some 1, some 2, some 3]⟩ 3 (by decide)

/-- C17, zero capacity is unchecked and faults on the first modulus: `New(0)`
returns a ring with `Capacity() = 0`, `head = -1` and `tail = 0`; on that ring
`Dequeue()`, `Peek()`, `Tail()` return no value and `PeekN(n)` returns empty for
every `n` without faulting, whereas `Enqueue(v)` faults with a modulus by zero in
index normalization for every value `v`. -/
theorem zero_capacity_behaviour :
    ∃ r0 : Ring α, New 0 = .ok r0 ∧ r0.Capacity = .ok (0, r0)
      ∧ r0.head = -1 ∧ r0.tail = 0
      ∧ r0.Dequeue = .ok (none, r0) ∧ r0.Peek = .ok (none, r0) ∧ r0.Tail = .ok (none, r0)
      ∧ (∀ n : Int, r0.PeekN n = .ok ([], r0))
      ∧ (∀ p : Int, r0.mod p = .error .divideByZero)
      ∧ (∀ v : Option α, r0.Enqueue v = .error .divideByZero) := by
  refine ⟨⟨-1, 0, []⟩, rfl, rfl, rfl, rfl, rfl, rfl, rfl, fun n => ?_, fun p => rfl,
    fun v => rfl⟩
  unfold PeekN
  split_ifs <;> first | rfl | (exfalso; simp_all)

/-- C18, every empty reachable ring has the fresh cursors: in every state
reachable from `New(c)`, `c > 0`, by `Enqueue` and `Dequeue` calls, `head = -1`
implies `tail = 0`; consequently `Enqueue(v)` on any empty reachable ring writes
slot 0, yields `head = tail = 0`, and makes `Peek() = Tail() = v`. -/
theorem empty_ring_has_fresh_cursors (c : Int) (r : Ring α) (hr : Reach c r)
    (he : r.head = -1) :
    r.tail = 0 ∧ ∀ v : Option α, ∃ r1, r.Enqueue v = .ok r1
      ∧ r1.buff = r.buff.set 0 v ∧ r1.head = 0 ∧ r1.tail = 0
      ∧ r1.Peek = .ok (v, r1) ∧ r1.Tail = .ok (v, r1) := by
  obtain ⟨n, t, q, _, hrep⟩ := hr.rep
  have hq : q = [] := List.length_eq_zero.1 (hrep.head_empty.1 he)
  subst hq
  have ht : t = 0 := hrep.empty_t rfl
  subst ht
  have htail : r.tail = 0 := by rw [hrep.tail_eq]; rfl
  refine ⟨htail, fun v => ?_⟩
  obtain ⟨r1, h1, h2⟩ := hrep.enqueue_ok v
  have hQ : enqQ n ([] : List (Option α)) v = [v] := by
    have := hrep.cpos
    simp [enqQ, this]
  have hT : enqT n 0 ([] : List (Option α)) = 0 := by
    have := hrep.cpos
    simp [enqT, this]
  rw [hQ, hT] at h2
  have hdirect : r.Enqueue v = .ok ⟨0, 0, r.buff.set 0 v⟩ := by
    have hm : ∀ r2 : Ring α, r2.buff.length = n → r2.mod 0 = .ok 0 := by
      intro r2 hl
      have := mod_natCast r2 n 0 hrep.cpos hl
      simpa using this
    have hs : r.set 0 v = .ok ⟨r.head, r.tail, r.buff.set 0 v⟩ := by
      have := set_natCast r n 0 v hrep.cpos hrep.len
      simpa using this
    unfold Enqueue
    rw [he]
    simp only [show (-1 : Int) + 1 = 0 by rfl]
    rw [hs]
    simp only [bind, Except.bind]
    rw [he]
    simp only [show (-1 : Int) + 1 = 0 by rfl]
    rw [hm _ (by simp [hrep.len])]
    simp [htail, pure, Except.pure]
  rw [hdirect] at h1
  cases h1
  exact ⟨_, hdirect, rfl, rfl, rfl, by simpa using h2.peek_ok, by simpa using h2.tail_ok⟩

/-- Witness of C18: the ring of capacity 2 emptied after `Enqueue(1)`,
`Enqueue(2)` and two `Dequeue` calls, whose storage still holds 1 and 2. -/
theorem empty_ring_has_fresh_cursors_witness :
    (0 : Int) = 0 ∧ ∀ v : Option Nat,
      ∃ r1, Ring.Enqueue (⟨-1, 0, [some 1, some 2]⟩ : Ring Nat) v = .ok r1
        ∧ r1.buff = [some 1, some 2].set 0 v ∧ r1.head = 0 ∧ r1.tail = 0
        ∧ r1.Peek = .ok (v, r1) ∧ r1.Tail = .ok (v, r1) :=
  empty_ring_has_fresh_cursors 2 ⟨-1, 0, [some 1, some 2]⟩
    (.dequeue ⟨1, 1, [some 1, some 2]⟩ _ (some 2)
      (.dequeue ⟨1, 0, [some 1, some 2]⟩ _ (some 1)
        (.enqueue ⟨0, 0, [some 1, none]⟩ _ (some 2)
          (.enqueue ⟨-1, 0, [none, none]⟩ _ (some 1) (.new _ (by decide) rfl) (by rfl))
          (by rfl))
        (by rfl))
      (by rfl))
    rfl

/-- C19, `PeekN` is monotone in its depth and anchored at both ends: for every
non-empty ring reachable from `New(c)`, `c > 0`, and all integers `0 < n ≤ m`,
`PeekN(n)` is an initial segment of `PeekN(m)` and the first element of `PeekN(n)`
equals `Peek()`; and for every `m ≥ occupancy` the last element of `PeekN(m)`
equals `Tail()` and `PeekN(m) = PeekN(c)`. -/
theorem peekN_monotone_anchored (c : Int) (r : Ring α) (hr : Reach c r)
    (hne : r.head ≠ -1) :
    (∀ n m : Int, 0 < n → n ≤ m → ∃ bn bm v,
        r.PeekN n = .ok (bn, r) ∧ r.PeekN m = .ok (bm, r) ∧ bn <+: bm
        ∧ r.Peek = .ok (v, r) ∧ bn.head? = some v)
    ∧ (∀ m : Int, r.occupancy ≤ m → ∃ bm w,
        r.PeekN m = .ok (bm, r) ∧ r.Tail = .ok (w, r) ∧ bm.getLast? = some w
        ∧ r.PeekN c = .ok (bm, r)) := by
  obtain ⟨k, t, q, rfl, hrep⟩ := hr.rep
  have h0 : q.length ≠ 0 := fun e => hne (hrep.head_empty.2 e)
  have hq : q ≠ [] := fun e => h0 (by rw [e]; rfl)
  have hqc := hrep.qlen
  constructor
  · intro n m hn hnm
    refine ⟨_, _, _, hrep.peekN_ok n, hrep.peekN_ok m,
      ⟨(q.reverse.take m.toNat).drop n.toNat, ?_⟩, hrep.peek_ok, ?_⟩
    · have e : q.reverse.take n.toNat = (q.reverse.take m.toNat).take n.toNat := by
        rw [List.take_take, Nat.min_eq_left (by omega)]
      rw [e, List.take_append_drop]
    · obtain ⟨j, hj⟩ : ∃ j, n.toNat = j + 1 := ⟨n.toNat - 1, by omega⟩
      rw [hj, List.head?_take, if_neg (by omega), List.head?_reverse]
      exact getLast?_of_ne_nil q hq
  · intro m hm
    rw [hrep.occupancy_eq] at hm
    have e1 : q.reverse.take m.toNat = q.reverse :=
      List.take_of_length_le (by simp; omega)
    have e2 : q.reverse.take (k : Int).toNat = q.reverse :=
      List.take_of_length_le (by simp; omega)
    refine ⟨q.reverse, _, ?_, hrep.tail_ok, ?_, ?_⟩
    · rw [hrep.peekN_ok m, e1]
    · rw [List.getLast?_reverse]
      exact head?_of_ne_nil q hq
    · rw [hrep.peekN_ok, e2]

/-- Witness of C19: the ring of capacity 3 after enqueueing 1..5, depths 1
and 2. -/
theorem peekN_monotone_anchored_witness :
    ∃ bn bm v,
      Ring.PeekN (⟨1, 2, [some 4, some 5, some 3]⟩ : Ring Nat) 1
          = .ok (bn, ⟨1, 2, [some 4, some 5, some 3]⟩)
        ∧ Ring.PeekN (⟨1, 2, [some 4, some 5, some 3]⟩ : Ring Nat) 2
          = .ok (bm, ⟨1, 2, [some 4, some 5, some 3]⟩)
        ∧ bn <+: bm
        ∧ Ring.Peek (⟨1, 2, [some 4, some 5, some 3]⟩ : Ring Nat)
          = .ok (v, ⟨1, 2, [some 4, some 5, some 3]⟩)
        ∧ bn.head? = some v :=
  (peekN_monotone_anchored 3 ⟨1, 2, [some 4, some 5, some 3]⟩
    (.enqueue ⟨0, 1, [some 4, some 2, some 3]⟩ _ (some 5)
      (.enqueue ⟨2, 0, [some 1, some 2, some 3]⟩ _ (some 4)
        (.enqueue ⟨1, 0, [some 1, some 2, none]⟩ _ (some 3)
          (.enqueue ⟨0, 0, [some 1, none, none]⟩ _ (some 2)
            (.enqueue ⟨-1, 0, [none, none, none]⟩ _ (some 1)
              (.new _ (by decide) rfl) (by rfl)) (by rfl)) (by rfl)) (by rfl)) (by rfl))
    (by decide)).1 1 2 (by decide) (by decide)

/-! ### The emptying law -/

theorem mem_dropLast_cons (a : Option α) (q : List (Option α)) (v : Option α)
    (h : v ∈ q.dropLast) : v ∈ (a :: q).dropLast := by
  cases q with
  | nil => simp at h
  | cons b l => exact List.mem_cons_of_mem _ h

theorem Rep.drainLoop_ok {c : Nat} (q : List (Option α)) :
    ∀ (r : Ring α) (t budget : Nat), Rep r c t q → (∀ v ∈ q.dropLast, v ≠ none) →
      q.length < budget → ∃ r', drainLoop budget r = .ok r' ∧ Rep r' c 0 [] := by
  induction q with
  | nil =>
    intro r t budget h _ hb
    obtain ⟨b, rfl⟩ : ∃ b, budget = b + 1 := ⟨budget - 1, by simp at hb; omega⟩
    have ht : t = 0 := h.empty_t rfl
    subst ht
    exact ⟨r, by simp [drainLoop, h.dequeue_nil, bind, Except.bind, pure, Except.pure], h⟩
  | cons a q' ih =>
    intro r t budget h hq hb
    obtain ⟨b, rfl⟩ : ∃ b, budget = b + 1 := ⟨budget - 1, by omega⟩
    obtain ⟨r1, h1, h2⟩ := h.dequeue_cons
    cases a with
    | none =>
      have hnil : q' = [] := by
        cases q' with
        | nil => rfl
        | cons b l => exact absurd rfl (hq none (List.mem_cons_self _ _))
      subst hnil
      have hT : deqT c t ([] : List (Option α)) = 0 := by simp [deqT]
      rw [hT] at h2
      exact ⟨r1, by simp [drainLoop, h1, bind, Except.bind, pure, Except.pure], h2⟩
    | some x =>
      obtain ⟨r2, h3, h4⟩ := ih r1 _ b h2
        (fun v hv => hq v (mem_dropLast_cons _ _ _ hv)) (by simpa using hb)
      exact ⟨r2, by simp [drainLoop, h1, h3, bind, Except.bind], h4⟩

theorem Rep.drainEmptyLoop_ok {c : Nat} (q : List (Option α)) :
    ∀ (r : Ring α) (t budget : Nat), Rep r c t q → q.length < budget →
      ∃ r', drainEmptyLoop budget r = .ok r' ∧ Rep r' c 0 [] := by
  induction q with
  | nil =>
    intro r t budget h hb
    obtain ⟨b, rfl⟩ : ∃ b, budget = b + 1 := ⟨budget - 1, by simp at hb; omega⟩
    have ht : t = 0 := h.empty_t rfl
    subst ht
    have he : r.head = -1 := h.head_empty.2 rfl
    exact ⟨r, by simp [drainEmptyLoop, he], h⟩
  | cons a q' ih =>
    intro r t budget h hb
    obtain ⟨b, rfl⟩ : ∃ b, budget = b + 1 := ⟨budget - 1, by omega⟩
    obtain ⟨r1, h1, h2⟩ := h.dequeue_cons
    have hne : ¬ r.head = -1 := fun e => by simpa using h.head_empty.1 e
    obtain ⟨r2, h3, h4⟩ := ih r1 _ b h2 (by simpa using hb)
    exact ⟨r2, by simp [drainEmptyLoop, hne, h1, h3, bind, Except.bind], h4⟩

/-- C8 as stated fails when a nil is retained before the newest value: on
`New(2)` after `Enqueue(nil)`, `Enqueue(1)` the first `Dequeue()` returns the
stored nil, so dequeuing until `Dequeue` returns no value stops after one call,
and on the resulting ring `Peek()` returns 1 rather than no value. -/
theorem drain_stops_at_stored_nil :
    (New 2 : Except Fault (Ring Nat)) = .ok ⟨-1, 0, [none, none]⟩
      ∧ Ring.run ⟨-1, 0, [none, none]⟩ [.enqueue none, .enqueue (some 1)]
          = .ok ([.unit, .unit], ⟨1, 0, [none, some 1]⟩)
      ∧ Ring.dequeueUntilNil ⟨1, 0, [none, some 1]⟩ = .ok ⟨1, 1, [none, some 1]⟩
      ∧ Ring.Peek ⟨1, 1, [none, some 1]⟩ = .ok (some 1, ⟨1, 1, [none, some 1]⟩) :=
  ⟨rfl, rfl, rfl, rfl⟩

/-- C8 as amended, emptying law: for every capacity `c > 0` and every sequence
of calls on `New(c)`, nil values included, followed by `Dequeue` calls until the
ring is empty, the resulting ring returns no value from `Peek()`, `Tail()` and
`Dequeue()` and is observationally equivalent to `New(c)`: every subsequent
sequence of `Enqueue`, `Dequeue`, `Peek`, `Tail`, `PeekN` and `Capacity` calls returns
identical results at every step on the emptied ring and on a fresh `New(c)`.
The same holds when the `Dequeue` calls go on until `Dequeue` returns no value,
provided no nil is retained before the newest value when that draining
starts. -/
theorem emptying_law (c : Int) (hc : 0 < c) (cs : List (Call α)) :
    ∃ (r0 : Ring α) (rets : List (Ret α)) (r1 : Ring α),
      New c = .ok r0 ∧ r0.run cs = .ok (rets, r1)
      ∧ (∃ r2, r1.dequeueUntilEmpty = .ok r2
          ∧ r2.Peek = .ok (none, r2) ∧ r2.Tail = .ok (none, r2)
          ∧ r2.Dequeue = .ok (none, r2)
          ∧ ∀ cs2 : List (Call α), ∃ (rets2 : List (Ret α)) (ra rb : Ring α),
              r2.run cs2 = .ok (rets2, ra) ∧ r0.run cs2 = .ok (rets2, rb))
      ∧ ((∀ v ∈ r1.contents.dropLast, v ≠ none) →
          ∃ r3, r1.dequeueUntilNil = .ok r3
            ∧ r3.Peek = .ok (none, r3) ∧ r3.Tail = .ok (none, r3)
            ∧ r3.Dequeue = .ok (none, r3)
            ∧ ∀ cs2 : List (Call α), ∃ (rets2 : List (Ret α)) (ra rb : Ring α),
                r3.run cs2 = .ok (rets2, ra) ∧ r0.run cs2 = .ok (rets2, rb)) := by
  obtain ⟨n, rfl⟩ : ∃ n : Nat, c = (n : Int) := ⟨c.toNat, (Int.toNat_of_nonneg hc.le).symm⟩
  have h0 := @Rep_fresh α n (by omega)
  obtain ⟨r1, h1, h2⟩ := h0.run_ok cs
  have hbud : (absRun n 0 [] cs).2.2.length < r1.buff.length + 1 := by
    have := h2.qlen
    have := h2.len
    omega
  have law : ∀ r : Ring α, Rep r n 0 [] →
      r.Peek = .ok (none, r) ∧ r.Tail = .ok (none, r) ∧ r.Dequeue = .ok (none, r)
        ∧ ∀ cs2 : List (Call α), ∃ (rets2 : List (Ret α)) (ra rb : Ring α),
            r.run cs2 = .ok (rets2, ra) ∧ (fresh n).run cs2 = .ok (rets2, rb) := by
    intro r hr
    refine ⟨hr.peek_ok, hr.tail_ok, hr.dequeue_nil, fun cs2 => ?_⟩
    obtain ⟨ra, ha, _⟩ := hr.run_ok cs2
    obtain ⟨rb, hb, _⟩ := h0.run_ok cs2
    exact ⟨_, ra, rb, ha, hb⟩
  refine ⟨fresh n, _, r1, New_pos n, h1, ?_, ?_⟩
  · obtain ⟨r2, h3, h4⟩ := Rep.drainEmptyLoop_ok _ r1 _ (r1.buff.length + 1) h2 hbud
    exact ⟨r2, h3, law r2 h4⟩
  · intro hnn
    rw [h2.contents_eq] at hnn
    obtain ⟨r3, h3, h4⟩ := Rep.drainLoop_ok _ r1 _ (r1.buff.length + 1) h2 hnn hbud
    exact ⟨r3, h3, law r3 h4⟩

/-- Witness of C8 as amended: capacity 2, calls `Enqueue(nil)`, `Dequeue()`,
`Enqueue(1)`, which leave the ring holding the single value 1; dequeuing until
`Dequeue` returns no value empties it. -/
theorem emptying_law_witness :
    (∀ v ∈ (Ring.contents (⟨0, 0, [some 1, none]⟩ : Ring Nat)).dropLast, v ≠ none)
      ∧ ∃ r3 : Ring Nat, Ring.dequeueUntilNil ⟨0, 0, [some 1, none]⟩ = .ok r3
        ∧ r3.Peek = .ok (none, r3) ∧ r3.Tail = .ok (none, r3)
        ∧ r3.Dequeue = .ok (none, r3)
        ∧ ∀ cs2 : List (Call Nat), ∃ (rets2 : List (Ret Nat)) (ra rb : Ring Nat),
            r3.run cs2 = .ok (rets2, ra)
              ∧ Ring.run ⟨-1, 0, [none, none]⟩ cs2 = .ok (rets2, rb) := by
  have hnn : ∀ v ∈ (Ring.contents (⟨0, 0, [some 1, none]⟩ : Ring Nat)).dropLast,
      v ≠ none := by
    intro v hv
    have e : Ring.contents (⟨0, 0, [some 1, none]⟩ : Ring Nat) = [some 1] := by rfl
    rw [e] at hv
    simp at hv
  obtain ⟨r0, rets, r1, h0, h1, _, hb⟩ :=
    emptying_law 2 (by decide) [Call.enqueue (none : Option Nat), .dequeue, .enqueue (some 1)]
  have e0 : (New 2 : Except Fault (Ring Nat)) = .ok ⟨-1, 0, [none, none]⟩ := rfl
  rw [e0] at h0
  cases h0
  have e1 : Ring.run (⟨-1, 0, [none, none]⟩ : Ring Nat)
      [Call.enqueue none, .dequeue, .enqueue (some 1)]
      = .ok ([.unit, .value none, .unit], ⟨0, 0, [some 1, none]⟩) := rfl
  rw [e1] at h1
  cases h1
  exact ⟨hnn, hb hnn⟩

end Ring

end ring

